import Mathlib

/-!
The file winsup/utils/dump_setup.cc.

A shallow embedding of the tarball filename parser, of the record reader and
the sorting of `dump_setup`, and of the file list verifier.  A C string is
modelled by the list of the characters that stand before its terminating NUL,
so the end of the list plays the part of the terminator; the fixed capacity of
the `fileparse` buffers is not modelled.  What a function prints is returned
next to its value, as the list of the lines printed; `errno` is passed on from
the call of `stat` that set it.
-/

namespace DumpSetup

/-! ## libc helpers -/

/-- Modelled from the spec: libc `isdigit` (ctype.h, not under src/) in the C
locale: true exactly for the characters `0` to `9`. -/
def isdigit (c : Char) : Bool :=
  decide (48 ≤ c.toNat) && decide (c.toNat ≤ 57)

/-- Modelled from the spec: libc `tolower` (ctype.h, not under src/) in the C
locale: the letters `A` to `Z` are mapped to `a` to `z`, every other character
is left alone. -/
def tolower (c : Char) : Char :=
  if 65 ≤ c.toNat ∧ c.toNat ≤ 90 then Char.ofNat (c.toNat + 32) else c

/-- Modelled from the spec: `strlwr` (string.h, not under src/): lower-cases
the string. -/
def strlwr (s : List Char) : List Char :=
  s.map tolower

/-- Modelled from the spec: libc `strcasecmp` (string.h, not under src/), the
case-insensitive comparison.  The characters are compared after `tolower`; at
the first difference the result is the difference of the two lower-cased
characters, and a string that ends first compares below the longer one (its
terminator is smaller than any character). -/
def strcasecmp : List Char → List Char → Int
  | [], [] => 0
  | [], _ :: _ => -1
  | _ :: _, [] => 1
  | a :: s, b :: t =>
    if tolower a = tolower b then strcasecmp s t
    else ((tolower a).toNat : Int) - ((tolower b).toNat : Int)

/-- Modelled from the spec: libc `memmove (buf + dst, buf + src, len)` inside
one buffer whose content is `buf`: the `len` characters starting at offset
`src` are copied to offset `dst`, everything else stays. -/
def memmove (buf : List Char) (dst src len : Nat) : List Char :=
  buf.take dst ++ ((buf.drop src).take len ++ buf.drop (dst + len))

/-! ## The filename parser -/

/-- The record `fileparse` filled by `parse_filename`. -/
structure fileparse where
  pkgtar : List Char
  pkg : List Char
  ver : List Char
  tail : List Char
  what : List Char
  deriving DecidableEq

/-- The function `find_tar_ext`: the offset of the tarball suffix, or 0. -/
def find_tar_ext (path : List Char) : Nat :=
  let len := path.length
  -- p = strchr (path, 0) - 7;  if (p <= path) return 0;
  if len ≤ 7 then 0
  else if path[len - 7]? = some '.' then
    if (path.drop (len - 7)) ≠ ".tar.gz".toList then 0 else len - 7
  -- else if (--p <= path || strcmp (p, ".tar.bz2") != 0) return 0;
  else if len - 8 = 0 ∨ (path.drop (len - 8)) ≠ ".tar.bz2".toList then 0
  else len - 8

/-- The loop of `base`: `rv` is the result so far, the last argument is what
is left to scan. -/
def base_loop (rv : List Char) : List Char → List Char
  | [] => rv
  | c :: s =>
    if (c = '/' ∨ c = ':' ∨ c = '\\') ∧ s ≠ [] then base_loop s s
    else base_loop rv s

/-- The function `base`: the string after the last path separator that is not
the last character. -/
def base (s : List Char) : List Char :=
  base_loop s s

/-- The variables of `parse_filename` when its `for` loop is left. `p` and
`ver` are the strings that the two pointers point to, `verOff` is `ver - p`.
`pkgtar` is written by the loop only at a bare variant marker; it is shown
empty otherwise, and `parse_filename` then fills it after the loop. -/
structure scanned where
  pkg : List Char
  what : List Char
  pkgtar : List Char
  p : List Char
  ver : List Char
  verOff : Nat
  deriving DecidableEq

/-- The `for (ver = p; *ver; ver++)` loop of `parse_filename`. `pre` holds the
characters of `p` that `ver` has passed, the last argument is the string at
`ver`; `tail` is `f.tail`. -/
def scan (tail : List Char) (pre : List Char) : List Char → scanned
  | [] => { pkg := [], what := [], pkgtar := [], p := pre, ver := [], verOff := pre.length }
  | c :: rest =>
    if c = '-' then
      if (rest.head?.map isdigit).getD false then
        -- *ver++ = 0; strcpy (f.pkg, p); break;
        { pkg := pre, what := [], pkgtar := [], p := pre, ver := rest,
          verOff := pre.length + 1 }
      else if strcasecmp (c :: rest) "-src".toList = 0 ∨
          strcasecmp (c :: rest) "-patch".toList = 0 then
        -- *ver++ = 0; strcpy (f.pkg, p); strcpy (f.what, strlwr (ver));
        -- strcpy (f.pkgtar, p); strcat (f.pkgtar, f.tail); ver = strchr (ver, 0);
        { pkg := pre, what := strlwr rest, pkgtar := pre ++ tail, p := pre, ver := [],
          verOff := pre.length + 1 + rest.length }
      else scan tail (pre ++ [c]) rest
    else scan tail (pre ++ [c]) rest

/-- The function `parse_filename` on strings of any length: `none` stands for
the return value 0, and `some f` for the return value 1 with `f` filled in.
The size of the arrays of `fileparse` is left out here; `parse_filename_checked`
below takes it into account. -/
def parse_filename (in_fn : List Char) : Option fileparse :=
  let n := find_tar_ext in_fn
  if n = 0 then none
  else
    let tail := in_fn.drop n
    let fn := in_fn.take n
    let p := base fn
    let st := scan tail [] p
    -- if (!f.pkg[0]) strcpy (f.pkg, p);
    let pkg := if st.pkg = [] then st.p else st.pkg
    let ver := st.ver
    if st.what = [] then
      -- p = strchr (ver, 0), as an offset into fn
      let pend := (fn.length - p.length) + st.verOff + ver.length
      let m :=
        if 4 ≤ ver.length ∧ strcasecmp (ver.drop (ver.length - 4)) "-src".toList = 0 then 4
        else if 6 ≤ ver.length ∧
            strcasecmp (ver.drop (ver.length - 6)) "-patch".toList = 0 then 6
        else 0
      if m ≠ 0 then
        -- strcpy (f.what, p + 1); *p = 0;
        let what := ver.drop (ver.length - m + 1)
        let ver := ver.take (ver.length - m)
        -- p = f.pkgtar + (p - fn) + n; memmove (p - 4, p, strlen (p));
        let q := (pend - m) + m
        let pkgtar := memmove in_fn (q - 4) q (in_fn.length - q)
        some { pkgtar := pkgtar, pkg := pkg, ver := if ver ≠ [] then ver else "0.0".toList,
               tail := tail, what := what }
      else
        some { pkgtar := in_fn, pkg := pkg, ver := if ver ≠ [] then ver else "0.0".toList,
               tail := tail, what := [] }
    else
      some { pkgtar := st.pkgtar, pkg := pkg, ver := if ver ≠ [] then ver else "0.0".toList,
             tail := tail, what := st.what }

/-! ## The capacity of the `fileparse` buffers -/

/-- Modelled from the spec: `MAX_PATH` of windows.h (not under src/), the
longest path the Windows API takes; the arrays `pkgtar`, `pkg`, `ver` and
`tail` of `fileparse` are `char[MAX_PATH + 1]`, and `what` is `char[16]`. -/
def MAX_PATH : Nat := 260

/-- How a call of `parse_filename` ends when the arrays have their declared
size: it returns 0, or it returns 1 with the fields filled in, or one of its
`strcpy` and `strcat` calls writes beyond the array it copies to. -/
inductive parse_outcome where
  | rejected
  | parsed (f : fileparse)
  | overrun
  deriving DecidableEq

/-- The function `parse_filename` with the capacity of the `fileparse` arrays.
No copy into a field is checked for length, and every field ends up with the
longest string that was copied to it: `tail` (line 80), `ver` (line 127) and
`what` (line 97 or 120) are copied once, `pkg` a second time only when the
first copy was empty (line 105), `pkgtar` is the base name and then the tail
(lines 98-99) or the whole name (line 111), and the `memmove` in it (line 123)
keeps its length.  So a copy leaves its array exactly when the final string of
the field, with its NUL, is longer than the array. -/
def parse_filename_checked (in_fn : List Char) : parse_outcome :=
  match parse_filename in_fn with
  | none => parse_outcome.rejected
  | some f =>
    if f.pkgtar.length ≤ MAX_PATH ∧ f.pkg.length ≤ MAX_PATH ∧ f.ver.length ≤ MAX_PATH ∧
        f.tail.length ≤ MAX_PATH ∧ f.what.length < 16 then
      parse_outcome.parsed f
    else parse_outcome.overrun

/-! ## The record reader of `dump_setup` -/

/-- The record `pkgver`: one row of the report. -/
structure pkgver where
  name : List Char
  ver : List Char
  deriving DecidableEq

/-- The function `match_argv`. `argv` is `none` for a null pointer, otherwise
the entries of the array that stand before its terminating null entry. -/
def match_argv (argv : Option (List (List Char))) (name : List Char) : Bool :=
  match argv with
  | none => true
  | some [] => true
  | some (a :: more) => (a :: more).any (fun x => decide (strcasecmp x name = 0))

/-- Modelled from the spec: libc `strtok` (string.h, not under src/) with the
delimiter string `" "`, on the string that is left to scan: leading blanks are
skipped; when nothing else is left there is no token, otherwise the token runs
to the next blank or to the end, and the scan resumes after that blank. -/
def strtok (s : List Char) : Option (List Char × List Char) :=
  let s1 := s.dropWhile (fun c => c == ' ')
  if s1 = [] then none
  else some (s1.takeWhile (fun c => c != ' '), (s1.dropWhile (fun c => c != ' ')).drop 1)

/-- The inner loop `for (int i = 0; i < 2; i++)` of `dump_setup`, with `k`
iterations left and `rest` the part of the line `strtok` has yet to scan;
the result lists the records stored in `packages`, in order.  The array is
taken to have room for them; `archive_loop_checked` below has its size. -/
def archive_loop (package : List Char) : Nat → List Char → List pkgver
  | 0, _ => []
  | k + 1, rest =>
    match strtok rest with
    | none => []
    | some (tar, rest1) =>
      match parse_filename tar with
      | none => []
      | some f =>
        -- strcpy (name, package); if (f.what[0]) strcat (strcat (name, "-"), f.what);
        let name := if f.what ≠ [] then package ++ '-' :: f.what else package
        { name := name, ver := f.ver } ::
          (match strtok rest1 with
           | none => []
           | some (_, rest2) => archive_loop package k rest2)

/-- The body of the outer loop of `dump_setup` on one line `buf` of the
database, as `fgets` returns it: the records this line stores. -/
def dump_line (argv : Option (List (List Char))) (buf : List Char) : List pkgver :=
  match strtok buf with
  | none => []
  | some (package, rest) =>
    if match_argv argv package then archive_loop package 2 rest else []

/-- The loop `for (n = 0; fgets (buf, 4096, fp) && n < nlines;)` of
`dump_setup` over the lines that are left; `packages` holds the `n` records
stored so far.  The counters are natural numbers here; `read_loop_checked`
below has them as `int`s. -/
def read_loop (argv : Option (List (List Char))) (nlines : Nat) :
    List (List Char) → List pkgver → List pkgver
  | [], packages => packages
  | buf :: more, packages =>
    if packages.length < nlines then
      read_loop argv nlines more (packages ++ dump_line argv buf)
    else packages

/-- The records `dump_setup` has stored when it reaches `qsort`, for a
database whose lines are `lines`; `none` when it leaves through `err`.  It is
the run of `dump_setup_checked` below when `nlines` does not wrap, `calloc`
returns the array and no buffer of `parse_filename` is overrun. -/
def dump_setup_records (argv : Option (List (List Char))) (lines : List (List Char)) :
    Option (List pkgver) :=
  -- while (fgets (buf, 4096, fp)) nlines += 2;  if (!nlines) goto err;
  let nlines := 2 * lines.length
  if nlines = 0 then none else some (read_loop argv nlines lines [])

/-! ## The record reader with the width of `int` and the size of `packages` -/

/-- Modelled from the spec: the type `int` of the compiler (not under src/),
32 bits in two's complement: the value an `int` variable holds after an
addition whose exact result is `x`. -/
def int_wrap (x : Int) : Int :=
  (x + 2147483648) % 4294967296 - 2147483648

/-- The loop `while (fgets (buf, 4096, fp)) nlines += 2;` of `dump_setup` over
the lines that are left, `nlines` being an `int`. -/
def count_nlines : List (List Char) → Int → Int
  | [], nlines => nlines
  | _ :: more, nlines => count_nlines more (int_wrap (nlines + 2))

/-- How the reading of the database ends: `dump_setup` leaves through `err`;
or a call of `parse_filename` writes beyond a `fileparse` buffer; or a record
is written to `packages[n]` with `n` outside the array; or the second loop
ends with the records `packages[0]` to `packages[n - 1]` stored. -/
inductive reader_outcome where
  | no_data
  | overrun
  | out_of_bounds (n : Int)
  | stored (packages : List pkgver)
  deriving DecidableEq

/-- The inner loop `for (int i = 0; i < 2; i++)` of `dump_setup` on an array
`packages` of `cap` elements (0 for a null pointer), with `k` iterations left.
`packages` lists the records written so far, all at the indices from 0, so the
`int` variable `n` holds their number; `malloc` and `strdup` are taken to
succeed. -/
def archive_loop_checked (cap : Nat) (package : List Char) :
    Nat → List Char → List pkgver → reader_outcome
  | 0, _, packages => reader_outcome.stored packages
  | k + 1, rest, packages =>
    match strtok rest with
    | none => reader_outcome.stored packages
    | some (tar, rest1) =>
      match parse_filename_checked tar with
      | parse_outcome.rejected => reader_outcome.stored packages
      | parse_outcome.overrun => reader_outcome.overrun
      | parse_outcome.parsed f =>
        let n := int_wrap packages.length
        -- packages[n].name = ...; packages[n].ver = strdup (f.ver); n++;
        if 0 ≤ n ∧ n < cap then
          let name := if f.what ≠ [] then package ++ '-' :: f.what else package
          let packages1 := packages ++ [{ name := name, ver := f.ver }]
          match strtok rest1 with
          | none => reader_outcome.stored packages1
          | some (_, rest2) => archive_loop_checked cap package k rest2 packages1
        else reader_outcome.out_of_bounds n

/-- The body of the outer loop of `dump_setup` on one line `buf`, on an array
of `cap` elements that holds the records `packages`. -/
def dump_line_checked (argv : Option (List (List Char))) (cap : Nat) (buf : List Char)
    (packages : List pkgver) : reader_outcome :=
  match strtok buf with
  | none => reader_outcome.stored packages
  | some (package, rest) =>
    if match_argv argv package then archive_loop_checked cap package 2 rest packages
    else reader_outcome.stored packages

/-- The loop `for (n = 0; fgets (buf, 4096, fp) && n < nlines;)` of
`dump_setup` over the lines that are left, `n` and `nlines` being `int`s, on
an array of `cap` elements. -/
def read_loop_checked (argv : Option (List (List Char))) (cap : Nat) (nlines : Int) :
    List (List Char) → List pkgver → reader_outcome
  | [], packages => reader_outcome.stored packages
  | buf :: more, packages =>
    if int_wrap packages.length < nlines then
      match dump_line_checked argv cap buf packages with
      | reader_outcome.stored packages1 => read_loop_checked argv cap nlines more packages1
      | e => e
    else reader_outcome.stored packages

/-- The function `dump_setup` up to its call of `qsort`, for a database whose
lines are `lines`, read alike on both passes.  `calloc_ok` tells whether
`calloc` returns an array when it is asked for a positive number of elements;
its result is not checked, and a negative `nlines`, converted to `size_t`, asks
for more than the address space, so the array then has no element. -/
def dump_setup_checked (calloc_ok : Bool) (argv : Option (List (List Char)))
    (lines : List (List Char)) : reader_outcome :=
  let nlines := count_nlines lines 0
  -- if (!nlines) goto err;
  if nlines = 0 then reader_outcome.no_data
  else
    -- packages = (pkgver *) calloc (nlines, sizeof (packages[0]));
    let cap := if calloc_ok then nlines.toNat else 0
    read_loop_checked argv cap nlines lines []

/-! ## Sorting the records -/

/-- The function `compar`, the comparison `qsort` is called with. -/
def compar (a b : pkgver) : Int :=
  strcasecmp a.name b.name

/-- Modelled from the spec: libc `qsort` (stdlib.h, not under src/) called with
`compar`: the array is rearranged into non-decreasing order under the
comparison, an element going before the first element it does not exceed. The
order libc leaves between elements that compare equal is unspecified; the model
keeps them in their order of arrival. -/
def qsort (packages : List pkgver) : List pkgver :=
  packages.insertionSort (fun a b => compar a b ≤ 0)

/-- The rows `dump_setup` prints after the header, in order: `packages[0]` to
`packages[n - 1]` as `qsort` has left them; `none` when it leaves through
`err`. -/
def dump_setup_rows (argv : Option (List (List Char))) (lines : List (List Char)) :
    Option (List pkgver) :=
  (dump_setup_records argv lines).map qsort

/-! ## The file list verifier -/

/-- Modelled from the spec: the error numbers of errno.h (not under src/) that
`could_not_access` tells apart, with their newlib values. -/
def ENOENT : Nat := 2

/-- Modelled from the spec: errno.h `EACCES`, see `ENOENT`. -/
def EACCES : Nat := 13

/-- Modelled from the spec: errno.h `ENOTDIR`, see `ENOENT`. -/
def ENOTDIR : Nat := 20

/-- Modelled from the spec: what `stat` (sys/stat.h, not under src/) reports on
a host path: a failure that leaves an error number in `errno`, or success with
a mode that `S_ISDIR` accepts, that `S_ISREG` accepts, or that neither does. -/
inductive stat_result where
  | error (errno : Nat)
  | dir
  | reg
  | other
  deriving DecidableEq

/-- Modelled from the spec: the collaborators of the verifier that are not
under src/.  `cygpath` (path.h) turns its arguments, given without the closing
NULL, into a host path; `stat` is the state of the host file system; `zcat`
gives, for a file list, the lines that `fgets` reads from the `gzip -dc` pipe,
each as `strtok (buf, "\n")` returns it (newline stripped, not empty). -/
structure host where
  cygpath : List (List Char) → List Char
  stat : List Char → stat_result
  zcat : List Char → List (List Char)

/-- The function `could_not_access`; `errno` is the value the failed `stat`
left.  The result is the return value and the lines printed. -/
def could_not_access (errno : Nat) (verbose : Bool) (filename package type : List Char) :
    Bool × List (List Char) :=
  if errno = ENOTDIR then (false, [])
  else if errno = ENOENT then
    (true, if verbose then
      ["Missing ".toList ++ type ++ ": /".toList ++ filename ++ " from package ".toList ++
        package ++ "\n".toList] else [])
  else if errno = EACCES then
    (true, if verbose then
      ["Unable to access ".toList ++ type ++ " /".toList ++ filename ++
        " from package ".toList ++ package ++ "\n".toList] else [])
  else (false, [])

/-- The function `directory_exists`: the return value and the lines printed. -/
def directory_exists (w : host) (verbose : Bool) (filename package : List Char) :
    Bool × List (List Char) :=
  match w.stat (w.cygpath ["/".toList, filename, ".".toList]) with
  | stat_result.error errno =>
    let r := could_not_access errno verbose filename package "directory".toList
    if r.1 then (false, r.2) else (true, r.2)
  | stat_result.dir => (true, [])
  | _ =>
    (false, if verbose then
      ["Directory/file mismatch: /".toList ++ filename ++ " from package ".toList ++
        package ++ "\n".toList] else [])

/-- The test `!S_ISREG (status.st_mode)` of `file_exists` and what follows it,
on the outcome `st` of a `stat` that succeeded. -/
def file_mode_check (st : stat_result) (verbose : Bool) (filename package : List Char) :
    Bool × List (List Char) :=
  if st = stat_result.reg then (true, [])
  else
    (false, if verbose then
      ["File type mismatch: /".toList ++ filename ++ " from package ".toList ++
        package ++ "\n".toList] else [])

/-- The function `file_exists`: the return value and the lines printed. `alt`
is `none` for a null pointer.  When both calls of `stat` fail, `errno` is what
the second one left. -/
def file_exists (w : host) (verbose : Bool) (filename : List Char) (alt : Option (List Char))
    (package : List Char) : Bool × List (List Char) :=
  match w.stat (w.cygpath ["/".toList, filename]) with
  | stat_result.error errno =>
    match alt with
    | none =>
      let r := could_not_access errno verbose filename package "file".toList
      if r.1 then (false, r.2) else (true, r.2)
    | some a =>
      match w.stat (w.cygpath ["/".toList, filename, a]) with
      | stat_result.error errno2 =>
        let r := could_not_access errno2 verbose filename package "file".toList
        if r.1 then (false, r.2) else (true, r.2)
      | st => file_mode_check st verbose filename package
  | st => file_mode_check st verbose filename package

/-- The body of the `while (fgets (buf, MAX_PATH, fp))` loop of
`check_package_files` on one entry `filename`: the check the entry gets, with
the value it returns and the lines it prints. -/
def check_entry (w : host) (verbose : Bool) (package filename : List Char) :
    Bool × List (List Char) :=
  if filename.getLast? = some '/' then directory_exists w verbose filename package
  else if filename.take 16 = "etc/postinstall/".toList then
    file_exists w verbose filename (some ".done".toList) package
  else file_exists w verbose filename (some ".lnk".toList) package

/-- The `while` loop of `check_package_files` over the entries that are left:
`result` is the variable of that name, `out` the lines printed so far. -/
def check_loop (w : host) (verbose : Bool) (package : List Char) :
    List (List Char) → Bool → List (List Char) → Bool × List (List Char)
  | [], result, out => (result, out)
  | filename :: more, result, out =>
    let r := check_entry w verbose package filename
    check_loop w verbose package more (if !r.1 then false else result) (out ++ r.2)

/-- The function `check_package_files`: the return value (`true` is printed as
`OK`, `false` as `Incomplete`) and the lines printed. -/
def check_package_files (w : host) (verbose : Bool) (package : List Char) :
    Bool × List (List Char) :=
  let filelist := "etc/setup/".toList ++ package ++ ".lst.gz".toList
  -- package is a null pointer in this call; with verbose off it is never printed
  if !(file_exists w false filelist none []).1 then
    (false, if verbose then
      ["Missing file list /".toList ++ filelist ++ " for package ".toList ++ package ++
        "\n".toList] else [])
  else check_loop w verbose package (w.zcat filelist) true []

/-! ## Vocabulary of the specification -/

/-- The string holds none of the path separators `/`, `:` and `\\` that `base`
splits at. -/
def no_sep (s : List Char) : Prop :=
  ∀ c ∈ s, c ≠ '/' ∧ c ≠ ':' ∧ c ≠ '\\'

instance (s : List Char) : Decidable (no_sep s) :=
  inferInstanceAs (Decidable (∀ c ∈ s, c ≠ '/' ∧ c ≠ ':' ∧ c ≠ '\\'))

/-- The string is a directory prefix: it is empty or its last character is a
path separator. -/
def is_dir (s : List Char) : Prop :=
  s = [] ∨ s.getLast? = some '/' ∨ s.getLast? = some ':' ∨ s.getLast? = some '\\'

instance (s : List Char) : Decidable (is_dir s) :=
  inferInstanceAs (Decidable (s = [] ∨ s.getLast? = some '/' ∨ s.getLast? = some ':' ∨
    s.getLast? = some '\\'))

/-- The string has a `-` that is immediately followed by a digit. -/
def has_dash_digit : List Char → Bool
  | [] => false
  | c :: s => (c == '-' && (s.head?.map isdigit).getD false) || has_dash_digit s

/-- The string ends in `-src` or in `-patch`, letter case ignored. -/
def ends_in_marker (s : List Char) : Prop :=
  "-src".toList <:+ strlwr s ∨ "-patch".toList <:+ strlwr s

instance (s : List Char) : Decidable (ends_in_marker s) :=
  inferInstanceAs (Decidable ("-src".toList <:+ strlwr s ∨ "-patch".toList <:+ strlwr s))

/-- What a version is when the loop is left: nothing, or a string that begins
with a digit. -/
def ver_shape (w : List Char) : Prop :=
  w = [] ∨ ∃ d v, w = d :: v ∧ isdigit d = true

/-- The name a record is listed under: the package name of the line, followed
by `-` and the variant when the archive carries one. -/
def display_name (package : List Char) (f : fileparse) : List Char :=
  if f.what ≠ [] then package ++ "-".toList ++ f.what else package

theorem char_eq_of_toNat_eq {a b : Char} (h : a.toNat = b.toNat) : a = b := by
  apply Char.ext
  apply UInt32.ext
  exact h

theorem strcasecmp_eq_zero_iff (a b : List Char) :
    strcasecmp a b = 0 ↔ strlwr a = strlwr b := by
  induction a generalizing b with
  | nil => cases b <;> simp [strcasecmp, strlwr]
  | cons x s ih =>
    cases b with
    | nil => simp [strcasecmp, strlwr]
    | cons y t =>
      by_cases hxy : tolower x = tolower y
      · simp only [strcasecmp, hxy, if_true, ih, strlwr, List.map_cons, List.cons.injEq,
          true_and]
      · simp only [strcasecmp, hxy, if_false, strlwr, List.map_cons, List.cons.injEq,
          false_and, iff_false]
        intro h
        apply hxy
        apply char_eq_of_toNat_eq
        omega

theorem tolower_of_isdigit {c : Char} (h : isdigit c = true) : tolower c = c := by
  simp only [isdigit, Bool.and_eq_true, decide_eq_true_eq] at h
  unfold tolower
  rw [if_neg]
  omega

theorem tolower_dash : tolower '-' = '-' := by decide

/-! ## The string constants of the source, spelled out -/

theorem tar_gz_chars : ".tar.gz".toList = ['.', 't', 'a', 'r', '.', 'g', 'z'] := rfl

theorem tar_bz2_chars : ".tar.bz2".toList = ['.', 't', 'a', 'r', '.', 'b', 'z', '2'] := rfl

theorem dash_src_chars : "-src".toList = ['-', 's', 'r', 'c'] := rfl

theorem dash_patch_chars : "-patch".toList = ['-', 'p', 'a', 't', 'c', 'h'] := rfl

theorem zero_zero_chars : "0.0".toList = ['0', '.', '0'] := rfl

/-! ## `find_tar_ext` -/

theorem find_tar_ext_gz (stem : List Char) (h : stem ≠ []) :
    find_tar_ext (stem ++ ".tar.gz".toList) = stem.length := by
  have hlen : 0 < stem.length := List.length_pos.mpr h
  have hL : (stem ++ ".tar.gz".toList).length = stem.length + 7 := by
    simp [tar_gz_chars]
  have hget : (stem ++ ".tar.gz".toList)[stem.length]? = some '.' := by
    rw [List.getElem?_append_right (le_refl _)]
    simp [tar_gz_chars]
  unfold find_tar_ext
  simp only [hL, Nat.add_sub_cancel, hget]
  rw [if_neg (by omega)]
  simp

theorem find_tar_ext_bz2 (stem : List Char) (h : stem ≠ []) :
    find_tar_ext (stem ++ ".tar.bz2".toList) = stem.length := by
  have hlen : 0 < stem.length := List.length_pos.mpr h
  have hL : (stem ++ ".tar.bz2".toList).length = stem.length + 8 := by
    simp [tar_bz2_chars]
  have h7 : stem.length + 8 - 7 = stem.length + 1 := by omega
  have hget : (stem ++ ".tar.bz2".toList)[stem.length + 1]? = some 't' := by
    rw [List.getElem?_append_right (by omega)]
    simp [tar_bz2_chars]
  have hle : ¬ stem.length + 8 ≤ 7 := by omega
  have hne : ¬ (some 't' = some '.') := by decide
  unfold find_tar_ext
  simp only [hL, Nat.add_sub_cancel, h7, hget, if_neg hle, if_neg hne]
  rw [if_neg]
  simp
  exact h

theorem find_tar_ext_eq_zero (path : List Char) (h1 : ¬ ".tar.gz".toList <:+ path)
    (h2 : ¬ ".tar.bz2".toList <:+ path) : find_tar_ext path = 0 := by
  unfold find_tar_ext
  simp only
  split_ifs with ha hb hc hd
  · rfl
  · rfl
  · exact absurd (by rw [← not_not.mp hc]; exact List.drop_suffix _ _) h1
  · rfl
  · push_neg at hd
    exact absurd (by rw [← hd.2]; exact List.drop_suffix _ _) h2

/-! ## `base` -/

theorem base_loop_no_sep (rv s : List Char) (h : no_sep s) : base_loop rv s = rv := by
  induction s with
  | nil => rfl
  | cons c s ih =>
    have hc := h c (List.mem_cons_self c s)
    have hs : no_sep s := fun x hx => h x (List.mem_cons_of_mem c hx)
    unfold base_loop
    rw [if_neg (by tauto)]
    exact ih hs

theorem base_no_sep (s : List Char) (h : no_sep s) : base s = s :=
  base_loop_no_sep s s h

theorem base_loop_dir (rv d : List Char) (c : Char) (comp : List Char)
    (hc : c = '/' ∨ c = ':' ∨ c = '\\') (hne : comp ≠ []) (h : no_sep comp) :
    base_loop rv (d ++ c :: comp) = comp := by
  induction d generalizing rv with
  | nil =>
    simp only [List.nil_append, base_loop]
    rw [if_pos ⟨hc, hne⟩]
    exact base_loop_no_sep comp comp h
  | cons x d ih =>
    simp only [List.cons_append, base_loop]
    split_ifs
    · exact ih _
    · exact ih _

theorem base_dir (dir comp : List Char) (hd : is_dir dir) (hne : comp ≠ [])
    (h : no_sep comp) : base (dir ++ comp) = comp := by
  rcases List.eq_nil_or_concat dir with hnil | ⟨d, c, hdc⟩
  · subst hnil
    exact base_no_sep comp h
  · subst hdc
    have hc : c = '/' ∨ c = ':' ∨ c = '\\' := by
      rcases hd with h0 | h1
      · simp at h0
      · simpa using h1
    unfold base
    rw [List.concat_eq_append, List.append_assoc]
    exact base_loop_dir _ d c comp hc hne h

/-! ## The scanning loop -/

theorem strlwr_dash_src : strlwr "-src".toList = "-src".toList := by decide

theorem strlwr_dash_patch : strlwr "-patch".toList = "-patch".toList := by decide

/-- A dash whose remainder holds another dash is never taken for a bare variant marker. -/
theorem not_marker_of_dash_mem (y : List Char) (h : '-' ∈ y) :
    ¬ (strcasecmp ('-' :: y) "-src".toList = 0 ∨ strcasecmp ('-' :: y) "-patch".toList = 0) := by
  have hm : '-' ∈ strlwr y := by
    have := List.mem_map_of_mem tolower h
    rwa [tolower_dash] at this
  rw [strcasecmp_eq_zero_iff, strcasecmp_eq_zero_iff, strlwr_dash_src, strlwr_dash_patch]
  rintro (h1 | h1)
  · simp only [strlwr, List.map_cons, dash_src_chars, List.cons.injEq] at h1
    rw [strlwr, h1.2] at hm
    revert hm
    decide
  · simp only [strlwr, List.map_cons, dash_patch_chars, List.cons.injEq] at h1
    rw [strlwr, h1.2] at hm
    revert hm
    decide

/-- The loop walks over a prefix without dash-digit when a dash follows it. -/
theorem scan_skip (tail pre a w : List Char) (ha : has_dash_digit a = false) :
    scan tail pre (a ++ '-' :: w) = scan tail (pre ++ a) ('-' :: w) := by
  induction a generalizing pre with
  | nil => simp
  | cons c a ih =>
    simp only [has_dash_digit, Bool.or_eq_false_iff, Bool.and_eq_false_imp, beq_iff_eq] at ha
    obtain ⟨hc, ha⟩ := ha
    have hstep : scan tail pre (c :: (a ++ '-' :: w)) = scan tail (pre ++ [c]) (a ++ '-' :: w) := by
      by_cases hcd : c = '-'
      · subst hcd
        have hd : ((a ++ '-' :: w).head?.map isdigit).getD false = false := by
          cases a with
          | nil => simp [isdigit]
          | cons x a => simpa using hc rfl
        have hm := not_marker_of_dash_mem (a ++ '-' :: w) (by simp)
        rw [scan, if_pos rfl, hd, if_neg (by simp), if_neg hm]
      · rw [scan, if_neg hcd]
    rw [List.cons_append, hstep, ih _ ha]
    simp

theorem scan_digit (tail pre : List Char) (d : Char) (v : List Char) (hd : isdigit d = true) :
    scan tail pre ('-' :: d :: v) =
      { pkg := pre, what := [], pkgtar := [], p := pre, ver := d :: v,
        verOff := pre.length + 1 } := by
  rw [scan, if_pos rfl, if_pos (by simpa using hd)]

theorem head_not_digit_of_strlwr {V : List Char} {x : Char} {t : List Char}
    (h : strlwr V = x :: t) (hx : isdigit x = false) :
    (V.head?.map isdigit).getD false = false := by
  cases V with
  | nil => rfl
  | cons y V =>
    simp only [strlwr, List.map_cons, List.cons.injEq] at h
    simp only [List.head?_cons, Option.map_some', Option.getD_some]
    by_contra hy
    simp only [Bool.not_eq_false] at hy
    rw [tolower_of_isdigit hy] at h
    rw [h.1, hx] at hy
    exact Bool.false_ne_true hy

theorem scan_marker (tail pre V : List Char)
    (hV : strlwr V = "src".toList ∨ strlwr V = "patch".toList) :
    scan tail pre ('-' :: V) =
      { pkg := pre, what := strlwr V, pkgtar := pre ++ tail, p := pre, ver := [],
        verOff := pre.length + 1 + V.length } := by
  have hd : (V.head?.map isdigit).getD false = false := by
    rcases hV with h | h
    · exact head_not_digit_of_strlwr (x := 's') (t := ['r', 'c']) h (by decide)
    · exact head_not_digit_of_strlwr (x := 'p') (t := ['a', 't', 'c', 'h']) h (by decide)
  have hm : strcasecmp ('-' :: V) "-src".toList = 0 ∨
      strcasecmp ('-' :: V) "-patch".toList = 0 := by
    rw [strcasecmp_eq_zero_iff, strcasecmp_eq_zero_iff, strlwr_dash_src, strlwr_dash_patch]
    rcases hV with h | h
    · left
      simp only [strlwr, List.map_cons, tolower_dash] at h ⊢
      rw [h]
      rfl
    · right
      simp only [strlwr, List.map_cons, tolower_dash] at h ⊢
      rw [h]
      rfl
  rw [scan, if_pos rfl, hd, if_neg (by simp), if_pos hm]

theorem not_ends_in_marker_tail {c : Char} {s : List Char} (h : ¬ ends_in_marker (c :: s)) :
    ¬ ends_in_marker s := by
  intro hs
  apply h
  have hsuf : strlwr s <:+ strlwr (c :: s) := by
    simp only [strlwr, List.map_cons]
    exact List.suffix_cons _ _
  rcases hs with h1 | h1
  · exact Or.inl (h1.trans hsuf)
  · exact Or.inr (h1.trans hsuf)

theorem scan_none (tail pre s : List Char) (hdd : has_dash_digit s = false)
    (hm : ¬ ends_in_marker s) :
    scan tail pre s =
      { pkg := [], what := [], pkgtar := [], p := pre ++ s, ver := [],
        verOff := (pre ++ s).length } := by
  induction s generalizing pre with
  | nil => simp [scan]
  | cons c s ih =>
    simp only [has_dash_digit, Bool.or_eq_false_iff, Bool.and_eq_false_imp, beq_iff_eq] at hdd
    obtain ⟨hc, hdd⟩ := hdd
    have hstep : scan tail pre (c :: s) = scan tail (pre ++ [c]) s := by
      by_cases hcd : c = '-'
      · subst hcd
        have hno : ¬ (strcasecmp ('-' :: s) "-src".toList = 0 ∨
            strcasecmp ('-' :: s) "-patch".toList = 0) := by
          rw [strcasecmp_eq_zero_iff, strcasecmp_eq_zero_iff, strlwr_dash_src,
            strlwr_dash_patch]
          rintro (h1 | h1)
          · exact hm (Or.inl (by rw [h1]))
          · exact hm (Or.inr (by rw [h1]))
        rw [scan, if_pos rfl, hc rfl, if_neg (by simp), if_neg hno]
      · rw [scan, if_neg hcd]
    rw [hstep, ih _ hdd (not_ends_in_marker_tail hm)]
    simp

/-! ## The marker test on the version -/

theorem marker_test_iff (ver lit : List Char) (hl : strlwr lit = lit) :
    (lit.length ≤ ver.length ∧ strcasecmp (ver.drop (ver.length - lit.length)) lit = 0) ↔
      lit <:+ strlwr ver := by
  rw [strcasecmp_eq_zero_iff, hl]
  constructor
  · rintro ⟨_, h⟩
    rw [← h]
    simp only [strlwr, List.map_drop]
    exact List.drop_suffix _ _
  · intro h
    have hlen : lit.length ≤ ver.length := by
      have := h.length_le
      simpa [strlwr] using this
    refine ⟨hlen, ?_⟩
    have := List.suffix_iff_eq_drop.mp h
    simp only [strlwr, List.length_map, List.map_drop] at this ⊢
    exact this.symm

theorem marker_src_iff (ver : List Char) :
    (4 ≤ ver.length ∧ strcasecmp (ver.drop (ver.length - 4)) "-src".toList = 0) ↔
      "-src".toList <:+ strlwr ver :=
  marker_test_iff ver "-src".toList strlwr_dash_src

theorem marker_patch_iff (ver : List Char) :
    (6 ≤ ver.length ∧ strcasecmp (ver.drop (ver.length - 6)) "-patch".toList = 0) ↔
      "-patch".toList <:+ strlwr ver :=
  marker_test_iff ver "-patch".toList strlwr_dash_patch

/-! ## `parse_filename` from the outcome of its loop -/

theorem find_tar_ext_stem (stem suffix : List Char) (hs : stem ≠ [])
    (hsuf : suffix = ".tar.gz".toList ∨ suffix = ".tar.bz2".toList) :
    find_tar_ext (stem ++ suffix) = stem.length := by
  rcases hsuf with h | h
  · rw [h]; exact find_tar_ext_gz stem hs
  · rw [h]; exact find_tar_ext_bz2 stem hs

/-- The loop found a bare variant marker: the second marker test is skipped. -/
theorem parse_filename_of_what (stem suffix : List Char) (hs : stem ≠ [])
    (hsuf : suffix = ".tar.gz".toList ∨ suffix = ".tar.bz2".toList) (st : scanned)
    (hst : scan suffix [] (base stem) = st) (hw : st.what ≠ []) :
    parse_filename (stem ++ suffix) =
      some { pkgtar := st.pkgtar, pkg := if st.pkg = [] then st.p else st.pkg,
             ver := if st.ver ≠ [] then st.ver else "0.0".toList,
             tail := suffix, what := st.what } := by
  have hlen : stem.length ≠ 0 := by simpa using hs
  simp only [parse_filename, find_tar_ext_stem stem suffix hs hsuf, if_neg hlen,
    List.take_left', List.drop_left', hst, if_neg hw]

/-- The loop found no variant and the version carries no marker either. -/
theorem parse_filename_of_plain (stem suffix : List Char) (hs : stem ≠ [])
    (hsuf : suffix = ".tar.gz".toList ∨ suffix = ".tar.bz2".toList) (st : scanned)
    (hst : scan suffix [] (base stem) = st) (hw : st.what = [])
    (hm : ¬ ends_in_marker st.ver) :
    parse_filename (stem ++ suffix) =
      some { pkgtar := stem ++ suffix, pkg := if st.pkg = [] then st.p else st.pkg,
             ver := if st.ver ≠ [] then st.ver else "0.0".toList,
             tail := suffix, what := [] } := by
  have hlen : stem.length ≠ 0 := by simpa using hs
  have h4 := (marker_src_iff st.ver).not.mpr (fun h => hm (Or.inl h))
  have h6 := (marker_patch_iff st.ver).not.mpr (fun h => hm (Or.inr h))
  simp only [parse_filename, find_tar_ext_stem stem suffix hs hsuf, if_neg hlen,
    List.take_left', List.drop_left', hst, if_pos hw, if_neg h4, if_neg h6]
  simp

/-- The version ends in `-src`: the marker is cut off and the tail of `pkgtar` is moved. -/
theorem parse_filename_of_src (stem suffix : List Char) (hs : stem ≠ [])
    (hsuf : suffix = ".tar.gz".toList ∨ suffix = ".tar.bz2".toList) (st : scanned)
    (hst : scan suffix [] (base stem) = st) (hw : st.what = [])
    (hm : "-src".toList <:+ strlwr st.ver) :
    parse_filename (stem ++ suffix) =
      some { pkgtar :=
               memmove (stem ++ suffix)
                 (stem.length - (base stem).length + st.verOff + st.ver.length - 4 + 4 - 4)
                 (stem.length - (base stem).length + st.verOff + st.ver.length - 4 + 4)
                 ((stem ++ suffix).length -
                   (stem.length - (base stem).length + st.verOff + st.ver.length - 4 + 4)),
             pkg := if st.pkg = [] then st.p else st.pkg,
             ver := if st.ver.take (st.ver.length - 4) ≠ [] then st.ver.take (st.ver.length - 4)
                    else "0.0".toList,
             tail := suffix, what := st.ver.drop (st.ver.length - 4 + 1) } := by
  have hlen : stem.length ≠ 0 := by simpa using hs
  have h4 := (marker_src_iff st.ver).mpr hm
  simp only [parse_filename, find_tar_ext_stem stem suffix hs hsuf, if_neg hlen,
    List.take_left', List.drop_left', hst, if_pos hw, if_pos h4]
  simp

/-- The version ends in `-patch`: the marker is cut off and the tail of `pkgtar` is moved. -/
theorem parse_filename_of_patch (stem suffix : List Char) (hs : stem ≠ [])
    (hsuf : suffix = ".tar.gz".toList ∨ suffix = ".tar.bz2".toList) (st : scanned)
    (hst : scan suffix [] (base stem) = st) (hw : st.what = [])
    (hm4 : ¬ "-src".toList <:+ strlwr st.ver) (hm : "-patch".toList <:+ strlwr st.ver) :
    parse_filename (stem ++ suffix) =
      some { pkgtar :=
               memmove (stem ++ suffix)
                 (stem.length - (base stem).length + st.verOff + st.ver.length - 6 + 6 - 4)
                 (stem.length - (base stem).length + st.verOff + st.ver.length - 6 + 6)
                 ((stem ++ suffix).length -
                   (stem.length - (base stem).length + st.verOff + st.ver.length - 6 + 6)),
             pkg := if st.pkg = [] then st.p else st.pkg,
             ver := if st.ver.take (st.ver.length - 6) ≠ [] then st.ver.take (st.ver.length - 6)
                    else "0.0".toList,
             tail := suffix, what := st.ver.drop (st.ver.length - 6 + 1) } := by
  have hlen : stem.length ≠ 0 := by simpa using hs
  have h4 := (marker_src_iff st.ver).not.mpr hm4
  have h6 := (marker_patch_iff st.ver).mpr hm
  simp only [parse_filename, find_tar_ext_stem stem suffix hs hsuf, if_neg hlen,
    List.take_left', List.drop_left', hst, if_pos hw, if_neg h4, if_pos h6]
  simp

theorem not_ends_in_marker_nil : ¬ ends_in_marker [] := by decide

theorem no_sep_append {a b : List Char} (ha : no_sep a) (hb : no_sep b) : no_sep (a ++ b) := by
  intro c hc
  rcases List.mem_append.mp hc with h | h
  · exact ha c h
  · exact hb c h

theorem no_sep_of_strlwr {V lit : List Char} (h : strlwr V = lit) (hl : no_sep lit) :
    no_sep V := by
  intro c hc
  have hmem : tolower c ∈ lit := by
    rw [← h]
    exact List.mem_map_of_mem tolower hc
  refine ⟨?_, ?_, ?_⟩
  · rintro rfl
    exact (hl _ hmem).1 (by decide)
  · rintro rfl
    exact (hl _ hmem).2.1 (by decide)
  · rintro rfl
    exact (hl _ hmem).2.2 (by decide)

theorem no_sep_marker {V : List Char}
    (hV : strlwr V = "src".toList ∨ strlwr V = "patch".toList) : no_sep ('-' :: V) := by
  have h1 : no_sep ['-'] := by decide
  have h2 : no_sep V := by
    rcases hV with h | h
    · exact no_sep_of_strlwr h (by decide)
    · exact no_sep_of_strlwr h (by decide)
  exact no_sep_append h1 h2

/-! ## More on `find_tar_ext` and on the version found by the loop -/

theorem find_tar_ext_suffix (path : List Char) (h : find_tar_ext path ≠ 0) :
    path.take (find_tar_ext path) ≠ [] ∧
      (path.drop (find_tar_ext path) = ".tar.gz".toList ∨
        path.drop (find_tar_ext path) = ".tar.bz2".toList) := by
  unfold find_tar_ext at h ⊢
  simp only at h ⊢
  split_ifs at h ⊢ with h1 h2 h3 h4
  · exact absurd rfl h
  · exact absurd rfl h
  · refine ⟨?_, Or.inl (not_not.mp h3)⟩
    intro hnil
    have := congrArg List.length hnil
    simp at this
    omega
  · exact absurd rfl h
  · push_neg at h4
    refine ⟨?_, Or.inr h4.2⟩
    intro hnil
    have := congrArg List.length hnil
    simp at this
    omega

theorem scan_ver_shape (tail pre s : List Char) : ver_shape (scan tail pre s).ver := by
  induction s generalizing pre with
  | nil => exact Or.inl rfl
  | cons c s ih =>
    unfold scan
    split_ifs with h1 h2 h3
    · right
      cases s with
      | nil => simp at h2
      | cons d v => exact ⟨d, v, rfl, by simpa using h2⟩
    · exact Or.inl rfl
    · exact ih _
    · exact ih _

theorem ver_shape_take (w : List Char) (k : Nat) (h : ver_shape w) : ver_shape (w.take k) := by
  rcases h with h | ⟨d, v, h, hd⟩
  · subst h
    left
    simp
  · subst h
    cases k with
    | zero => left; rfl
    | succ k => right; exact ⟨d, v.take k, rfl, hd⟩

theorem ver_shape_default (w : List Char) (h : ver_shape w) :
    (if w ≠ [] then w else "0.0".toList) ≠ [] ∧
      ((if w ≠ [] then w else "0.0".toList) = "0.0".toList ∨
        ∃ d v, (if w ≠ [] then w else "0.0".toList) = d :: v ∧ isdigit d = true) := by
  rcases h with h | ⟨d, v, h, hd⟩
  · subst h
    exact ⟨by decide, Or.inl rfl⟩
  · subst h
    simp only [ne_eq, not_false_eq_true, if_true, reduceCtorEq]
    exact ⟨by simp, Or.inr ⟨d, v, rfl, hd⟩⟩

/-! ## Names, digit strings and versions -/

theorem has_dash_digit_append (x y : List Char) (hx : has_dash_digit x = false)
    (hy : has_dash_digit y = false) (hh : (y.head?.map isdigit).getD false = false) :
    has_dash_digit (x ++ y) = false := by
  induction x with
  | nil => simpa using hy
  | cons c x ih =>
    simp only [has_dash_digit, Bool.or_eq_false_iff, Bool.and_eq_false_imp, beq_iff_eq] at hx
    obtain ⟨hc, hx⟩ := hx
    simp only [List.cons_append, has_dash_digit, Bool.or_eq_false_iff, Bool.and_eq_false_imp,
      beq_iff_eq]
    refine ⟨fun hcd => ?_, ih hx⟩
    cases x with
    | nil => simpa using hh
    | cons a x => simpa using hc hcd

theorem no_sep_of_isdigit {c : Char} (h : isdigit c = true) :
    c ≠ '/' ∧ c ≠ ':' ∧ c ≠ '\\' := by
  refine ⟨?_, ?_, ?_⟩ <;> rintro rfl <;> revert h <;> decide

theorem no_sep_digits (d : List Char) (h : ∀ c ∈ d, isdigit c = true) : no_sep d :=
  fun c hc => no_sep_of_isdigit (h c hc)

theorem strlwr_digits (d : List Char) (h : ∀ c ∈ d, isdigit c = true) : strlwr d = d := by
  induction d with
  | nil => rfl
  | cons c d ih =>
    simp only [strlwr, List.map_cons, List.cons.injEq]
    exact ⟨tolower_of_isdigit (h c (List.mem_cons_self c d)),
      ih fun x hx => h x (List.mem_cons_of_mem c hx)⟩

theorem not_ends_in_marker_digits (d : List Char) (h : ∀ c ∈ d, isdigit c = true) :
    ¬ ends_in_marker d := by
  unfold ends_in_marker
  rw [strlwr_digits d h]
  rintro (h1 | h1)
  · have hmem : '-' ∈ d := h1.subset (by decide)
    have := h _ hmem
    revert this
    decide
  · have hmem : '-' ∈ d := h1.subset (by decide)
    have := h _ hmem
    revert this
    decide

theorem strlwr_append (a b : List Char) : strlwr (a ++ b) = strlwr a ++ strlwr b := by
  simp [strlwr]

theorem take_strip_src (w : List Char) :
    (w ++ "-src".toList).take ((w ++ "-src".toList).length - 4) = w := by
  have h : (w ++ "-src".toList).length - 4 = w.length := by simp [dash_src_chars]
  rw [h, List.take_left']
  rfl

theorem drop_strip_src (w : List Char) :
    (w ++ "-src".toList).drop ((w ++ "-src".toList).length - 4 + 1) = "src".toList := by
  have h : (w ++ "-src".toList).length - 4 + 1 = w.length + 1 := by simp [dash_src_chars]
  rw [h, ← List.drop_drop, List.drop_left']
  · rfl
  · rfl

/-! ## `strtok` and `match_argv` -/

theorem dropWhile_blank_of_head {s : List Char} (c : Char) (t : List Char) (h : s = c :: t)
    (hc : c ≠ ' ') : s.dropWhile (fun c => c == ' ') = s := by
  subst h
  simp [List.dropWhile_cons, hc]

theorem takeWhile_token (tok rest : List Char) (h : ' ' ∉ tok) :
    (tok ++ ' ' :: rest).takeWhile (fun c => c != ' ') = tok := by
  induction tok with
  | nil => simp [List.takeWhile]
  | cons c tok ih =>
    have hc : c ≠ ' ' := fun e => h (e ▸ List.mem_cons_self c tok)
    have ht : ' ' ∉ tok := fun e => h (List.mem_cons_of_mem c e)
    simp [List.takeWhile_cons, hc, ih ht]

theorem dropWhile_token (tok rest : List Char) (h : ' ' ∉ tok) :
    (tok ++ ' ' :: rest).dropWhile (fun c => c != ' ') = ' ' :: rest := by
  induction tok with
  | nil => simp [List.dropWhile]
  | cons c tok ih =>
    have hc : c ≠ ' ' := fun e => h (e ▸ List.mem_cons_self c tok)
    have ht : ' ' ∉ tok := fun e => h (List.mem_cons_of_mem c e)
    simp [List.dropWhile_cons, hc, ih ht]

theorem takeWhile_last_token (tok : List Char) (h : ' ' ∉ tok) :
    tok.takeWhile (fun c => c != ' ') = tok := by
  induction tok with
  | nil => rfl
  | cons c tok ih =>
    have hc : c ≠ ' ' := fun e => h (e ▸ List.mem_cons_self c tok)
    have ht : ' ' ∉ tok := fun e => h (List.mem_cons_of_mem c e)
    simp [List.takeWhile_cons, hc, ih ht]

theorem dropWhile_last_token (tok : List Char) (h : ' ' ∉ tok) :
    tok.dropWhile (fun c => c != ' ') = [] := by
  induction tok with
  | nil => rfl
  | cons c tok ih =>
    have hc : c ≠ ' ' := fun e => h (e ▸ List.mem_cons_self c tok)
    have ht : ' ' ∉ tok := fun e => h (List.mem_cons_of_mem c e)
    simp [List.dropWhile_cons, hc, ih ht]

theorem strtok_nil : strtok [] = none := rfl

/-- A token that is followed by a blank. -/
theorem strtok_token (tok rest : List Char) (hne : tok ≠ []) (h : ' ' ∉ tok) :
    strtok (tok ++ ' ' :: rest) = some (tok, rest) := by
  obtain ⟨c, t, rfl⟩ := List.exists_cons_of_ne_nil hne
  have hc : c ≠ ' ' := fun e => h (e ▸ List.mem_cons_self c t)
  have hd : ((c :: t) ++ ' ' :: rest).dropWhile (fun c => c == ' ') = (c :: t) ++ ' ' :: rest :=
    dropWhile_blank_of_head c (t ++ ' ' :: rest) rfl hc
  unfold strtok
  simp only [hd, takeWhile_token _ rest h, dropWhile_token _ rest h]
  simp

/-- A token that ends the line. -/
theorem strtok_last (tok : List Char) (hne : tok ≠ []) (h : ' ' ∉ tok) :
    strtok tok = some (tok, []) := by
  obtain ⟨c, t, rfl⟩ := List.exists_cons_of_ne_nil hne
  have hc : c ≠ ' ' := fun e => h (e ▸ List.mem_cons_self c t)
  have hd : (c :: t).dropWhile (fun c => c == ' ') = c :: t :=
    dropWhile_blank_of_head c t rfl hc
  unfold strtok
  simp only [hd, takeWhile_last_token _ h, dropWhile_last_token _ h]
  simp

theorem parse_filename_ne_nil {t : List Char} {f : fileparse} (h : parse_filename t = some f) :
    t ≠ [] := by
  rintro rfl
  have hnone : parse_filename [] = none := by decide
  rw [hnone] at h
  cases h

/-! ## The record reader -/

theorem archive_loop_length (package : List Char) (k : Nat) (rest : List Char) :
    (archive_loop package k rest).length ≤ k := by
  induction k generalizing rest with
  | zero => simp [archive_loop]
  | succ k ih =>
    cases hst : strtok rest with
    | none => simp [archive_loop, hst]
    | some tr =>
      obtain ⟨tar, rest1⟩ := tr
      cases hp : parse_filename tar with
      | none => simp [archive_loop, hst, hp]
      | some f =>
        cases hst1 : strtok rest1 with
        | none => simp [archive_loop, hst, hp, hst1]
        | some tr1 =>
          obtain ⟨skipped, rest2⟩ := tr1
          simp only [archive_loop, hst, hp, hst1, List.length_cons]
          exact Nat.succ_le_succ (ih rest2)

theorem dump_line_length (argv : Option (List (List Char))) (buf : List Char) :
    (dump_line argv buf).length ≤ 2 := by
  unfold dump_line
  split
  · simp
  · split_ifs
    · exact archive_loop_length _ 2 _
    · simp

theorem archive_loop_zero_tail (package : List Char) (o : Option (List Char × List Char)) :
    (match o with
      | none => []
      | some (_, rest2) => archive_loop package 0 rest2) = [] := by
  cases o with
  | none => rfl
  | some tr => rfl

/-- One turn of the inner loop on an archive token that parses and is followed
by a blank: its record, then the next field is skipped. -/
theorem archive_loop_step (package : List Char) (k : Nat) (tar rest1 : List Char)
    (f : fileparse) (hs : ' ' ∉ tar) (hp : parse_filename tar = some f) :
    archive_loop package (k + 1) (tar ++ ' ' :: rest1) =
      { name := display_name package f, ver := f.ver } ::
        (match strtok rest1 with
          | none => []
          | some (_, rest2) => archive_loop package k rest2) := by
  rw [archive_loop, strtok_token tar rest1 (parse_filename_ne_nil hp) hs]
  simp only [hp, display_name]
  simp

/-- One turn of the inner loop on an archive token that parses and ends the line. -/
theorem archive_loop_last (package : List Char) (k : Nat) (tar : List Char)
    (f : fileparse) (hs : ' ' ∉ tar) (hp : parse_filename tar = some f) :
    archive_loop package (k + 1) tar = [{ name := display_name package f, ver := f.ver }] := by
  rw [archive_loop, strtok_last tar (parse_filename_ne_nil hp) hs]
  simp only [hp, display_name, strtok_nil]
  simp

/-! ## The comparison of `qsort` -/

theorem strcasecmp_swap (a b : List Char) : 0 < strcasecmp a b ↔ strcasecmp b a < 0 := by
  induction a generalizing b with
  | nil => cases b <;> simp [strcasecmp]
  | cons x s ih =>
    cases b with
    | nil => simp [strcasecmp]
    | cons y t =>
      by_cases hxy : tolower x = tolower y
      · simp only [strcasecmp, hxy, if_true, ih]
      · have hyx : ¬ tolower y = tolower x := fun h => hxy h.symm
        simp only [strcasecmp, hxy, hyx, if_false]
        omega

theorem strcasecmp_neg_iff (a b : List Char) :
    strcasecmp a b < 0 ↔ List.Lex (fun x y : Char => x < y) (strlwr a) (strlwr b) := by
  induction a generalizing b with
  | nil =>
    cases b with
    | nil => simp [strcasecmp, strlwr]
    | cons y t => simp [strcasecmp, strlwr, List.Lex.nil]
  | cons x s ih =>
    cases b with
    | nil => simp [strcasecmp, strlwr]
    | cons y t =>
      by_cases hxy : tolower x = tolower y
      · simp only [strcasecmp, hxy, if_true, ih, strlwr, List.map_cons]
        exact List.Lex.cons_iff.symm
      · simp only [strcasecmp, hxy, if_false, strlwr, List.map_cons]
        generalize tolower x = x1, tolower y = y1 at hxy
        generalize List.map tolower s = s1, List.map tolower t = t1
        constructor
        · intro h
          apply List.Lex.rel
          show x1.toNat < y1.toNat
          omega
        · intro h
          cases h with
          | cons h' => exact absurd rfl hxy
          | rel h' =>
            have : x1.toNat < y1.toNat := h'
            omega

/-! ## The file list verifier -/

theorem could_not_access_quiet (errno : Nat) (filename package type : List Char) :
    (could_not_access errno false filename package type).2 = [] := by
  unfold could_not_access
  by_cases h1 : errno = ENOTDIR
  · rw [if_pos h1]
  · rw [if_neg h1]
    by_cases h2 : errno = ENOENT
    · rw [if_pos h2]
      rfl
    · rw [if_neg h2]
      by_cases h3 : errno = EACCES
      · rw [if_pos h3]
        rfl
      · rw [if_neg h3]

theorem could_not_access_verbose (errno : Nat) (verbose : Bool)
    (filename package type : List Char) :
    (could_not_access errno verbose filename package type).1 =
      (could_not_access errno false filename package type).1 := by
  unfold could_not_access
  by_cases h1 : errno = ENOTDIR
  · rw [if_pos h1, if_pos h1]
  · rw [if_neg h1, if_neg h1]
    by_cases h2 : errno = ENOENT
    · rw [if_pos h2, if_pos h2]
    · rw [if_neg h2, if_neg h2]
      by_cases h3 : errno = EACCES
      · rw [if_pos h3, if_pos h3]
      · rw [if_neg h3, if_neg h3]

/-- What an entry returns after `could_not_access` has answered. -/
theorem access_pair (r : Bool × List (List Char)) :
    (if r.1 = true then (false, r.2) else (true, r.2)) = (!r.1, r.2) := by
  cases h : r.1 <;> simp

theorem directory_exists_error (w : host) (verbose : Bool) (filename package : List Char)
    (errno : Nat)
    (h : w.stat (w.cygpath ["/".toList, filename, ".".toList]) = stat_result.error errno) :
    directory_exists w verbose filename package =
      (!(could_not_access errno verbose filename package "directory".toList).1,
        (could_not_access errno verbose filename package "directory".toList).2) := by
  simp only [directory_exists, h, access_pair]

theorem directory_exists_dir (w : host) (verbose : Bool) (filename package : List Char)
    (h : w.stat (w.cygpath ["/".toList, filename, ".".toList]) = stat_result.dir) :
    directory_exists w verbose filename package = (true, []) := by
  simp only [directory_exists, h]

theorem directory_exists_mismatch (w : host) (verbose : Bool) (filename package : List Char)
    (h : w.stat (w.cygpath ["/".toList, filename, ".".toList]) = stat_result.reg ∨
      w.stat (w.cygpath ["/".toList, filename, ".".toList]) = stat_result.other) :
    directory_exists w verbose filename package =
      (false, if verbose then
        ["Directory/file mismatch: /".toList ++ filename ++ " from package ".toList ++
          package ++ "\n".toList] else []) := by
  rcases h with h | h <;> simp only [directory_exists, h]

theorem file_exists_found (w : host) (verbose : Bool) (filename : List Char)
    (alt : Option (List Char)) (package : List Char)
    (h : ∀ errno, w.stat (w.cygpath ["/".toList, filename]) ≠ stat_result.error errno) :
    file_exists w verbose filename alt package =
      file_mode_check (w.stat (w.cygpath ["/".toList, filename])) verbose filename package := by
  unfold file_exists
  cases hs : w.stat (w.cygpath ["/".toList, filename]) with
  | error errno => exact absurd hs (h errno)
  | dir => rfl
  | reg => rfl
  | other => rfl

theorem file_exists_no_alt (w : host) (verbose : Bool) (filename package : List Char)
    (errno : Nat) (h : w.stat (w.cygpath ["/".toList, filename]) = stat_result.error errno) :
    file_exists w verbose filename none package =
      (!(could_not_access errno verbose filename package "file".toList).1,
        (could_not_access errno verbose filename package "file".toList).2) := by
  simp only [file_exists, h, access_pair]

theorem file_exists_alt_error (w : host) (verbose : Bool) (filename a package : List Char)
    (errno errno2 : Nat)
    (h : w.stat (w.cygpath ["/".toList, filename]) = stat_result.error errno)
    (h2 : w.stat (w.cygpath ["/".toList, filename, a]) = stat_result.error errno2) :
    file_exists w verbose filename (some a) package =
      (!(could_not_access errno2 verbose filename package "file".toList).1,
        (could_not_access errno2 verbose filename package "file".toList).2) := by
  simp only [file_exists, h, h2, access_pair]

theorem file_exists_alt_found (w : host) (verbose : Bool) (filename a package : List Char)
    (errno : Nat)
    (h : w.stat (w.cygpath ["/".toList, filename]) = stat_result.error errno)
    (h2 : ∀ errno2, w.stat (w.cygpath ["/".toList, filename, a]) ≠ stat_result.error errno2) :
    file_exists w verbose filename (some a) package =
      file_mode_check (w.stat (w.cygpath ["/".toList, filename, a])) verbose filename
        package := by
  simp only [file_exists, h]

theorem directory_exists_verbose (w : host) (verbose : Bool) (filename package : List Char) :
    (directory_exists w verbose filename package).1 =
      (directory_exists w false filename package).1 := by
  cases h : w.stat (w.cygpath ["/".toList, filename, ".".toList]) with
  | error errno =>
    rw [directory_exists_error w verbose _ _ errno h, directory_exists_error w false _ _ errno h]
    simp only [could_not_access_verbose errno verbose]
  | dir => rw [directory_exists_dir w verbose _ _ h, directory_exists_dir w false _ _ h]
  | reg =>
    rw [directory_exists_mismatch w verbose _ _ (Or.inl h),
      directory_exists_mismatch w false _ _ (Or.inl h)]
  | other =>
    rw [directory_exists_mismatch w verbose _ _ (Or.inr h),
      directory_exists_mismatch w false _ _ (Or.inr h)]

theorem directory_exists_quiet (w : host) (filename package : List Char) :
    (directory_exists w false filename package).2 = [] := by
  cases h : w.stat (w.cygpath ["/".toList, filename, ".".toList]) with
  | error errno =>
    rw [directory_exists_error w false _ _ errno h]
    exact could_not_access_quiet _ _ _ _
  | dir => rw [directory_exists_dir w false _ _ h]
  | reg => rw [directory_exists_mismatch w false _ _ (Or.inl h)]; rfl
  | other => rw [directory_exists_mismatch w false _ _ (Or.inr h)]; rfl

theorem file_mode_check_verbose (st : stat_result) (verbose : Bool)
    (filename package : List Char) :
    (file_mode_check st verbose filename package).1 =
      (file_mode_check st false filename package).1 := by
  unfold file_mode_check
  by_cases h : st = stat_result.reg
  · rw [if_pos h, if_pos h]
  · rw [if_neg h, if_neg h]

theorem file_mode_check_quiet (st : stat_result) (filename package : List Char) :
    (file_mode_check st false filename package).2 = [] := by
  unfold file_mode_check
  by_cases h : st = stat_result.reg
  · rw [if_pos h]
  · rw [if_neg h]
    rfl

/-- The four ways `file_exists` can go, by what the calls of `stat` report. -/
theorem file_exists_cases (w : host) (verbose : Bool) (filename : List Char)
    (alt : Option (List Char)) (package : List Char) :
    (∃ errno, file_exists w verbose filename alt package =
        (!(could_not_access errno verbose filename package "file".toList).1,
          (could_not_access errno verbose filename package "file".toList).2) ∧
      file_exists w false filename alt package =
        (!(could_not_access errno false filename package "file".toList).1,
          (could_not_access errno false filename package "file".toList).2)) ∨
    (∃ st, file_exists w verbose filename alt package =
        file_mode_check st verbose filename package ∧
      file_exists w false filename alt package = file_mode_check st false filename package) := by
  by_cases h1 : ∀ errno, w.stat (w.cygpath ["/".toList, filename]) ≠ stat_result.error errno
  · exact Or.inr ⟨_, file_exists_found w verbose _ alt _ h1, file_exists_found w false _ alt _ h1⟩
  · push_neg at h1
    obtain ⟨errno, h1⟩ := h1
    cases alt with
    | none =>
      exact Or.inl ⟨errno, file_exists_no_alt w verbose _ _ errno h1,
        file_exists_no_alt w false _ _ errno h1⟩
    | some a =>
      by_cases h2 : ∀ errno2,
          w.stat (w.cygpath ["/".toList, filename, a]) ≠ stat_result.error errno2
      · exact Or.inr ⟨_, file_exists_alt_found w verbose _ a _ errno h1 h2,
          file_exists_alt_found w false _ a _ errno h1 h2⟩
      · push_neg at h2
        obtain ⟨errno2, h2⟩ := h2
        exact Or.inl ⟨errno2, file_exists_alt_error w verbose _ a _ errno errno2 h1 h2,
          file_exists_alt_error w false _ a _ errno errno2 h1 h2⟩

theorem file_exists_verbose (w : host) (verbose : Bool) (filename : List Char)
    (alt : Option (List Char)) (package : List Char) :
    (file_exists w verbose filename alt package).1 =
      (file_exists w false filename alt package).1 := by
  rcases file_exists_cases w verbose filename alt package with ⟨errno, hv, hq⟩ | ⟨st, hv, hq⟩
  · rw [hv, hq]
    simp only [could_not_access_verbose errno verbose]
  · rw [hv, hq]
    exact file_mode_check_verbose _ _ _ _

theorem file_exists_quiet (w : host) (filename : List Char) (alt : Option (List Char))
    (package : List Char) : (file_exists w false filename alt package).2 = [] := by
  rcases file_exists_cases w false filename alt package with ⟨errno, hv, -⟩ | ⟨st, hv, -⟩
  · rw [hv]
    exact could_not_access_quiet _ _ _ _
  · rw [hv]
    exact file_mode_check_quiet _ _ _

theorem check_entry_verbose (w : host) (verbose : Bool) (package filename : List Char) :
    (check_entry w verbose package filename).1 = (check_entry w false package filename).1 := by
  unfold check_entry
  split_ifs
  · exact directory_exists_verbose _ _ _ _
  · exact file_exists_verbose _ _ _ _ _
  · exact file_exists_verbose _ _ _ _ _

theorem check_entry_quiet (w : host) (package filename : List Char) :
    (check_entry w false package filename).2 = [] := by
  unfold check_entry
  split_ifs
  · exact directory_exists_quiet _ _ _
  · exact file_exists_quiet _ _ _ _
  · exact file_exists_quiet _ _ _ _

/-- The loop keeps going after a failure: its result is the conjunction of the
checks of all entries, and it prints what every entry prints, in order. -/
theorem check_loop_eq (w : host) (verbose : Bool) (package : List Char)
    (entries : List (List Char)) (result : Bool) (out : List (List Char)) :
    check_loop w verbose package entries result out =
      (result && entries.all (fun e => (check_entry w verbose package e).1),
        out ++ entries.flatMap (fun e => (check_entry w verbose package e).2)) := by
  induction entries generalizing result out with
  | nil => simp [check_loop]
  | cons e more ih =>
    rw [check_loop, ih]
    cases h : (check_entry w verbose package e).1 <;> cases result <;> simp [h]

/-- The four ways `parse_filename` can succeed, by what its loop and its
second marker test find. -/
theorem parse_filename_cases (in_fn : List Char) (f : fileparse)
    (h : parse_filename in_fn = some f) :
    ∃ stem suffix : List Char, ∃ st : scanned,
      stem ≠ [] ∧ (suffix = ".tar.gz".toList ∨ suffix = ".tar.bz2".toList) ∧
      in_fn = stem ++ suffix ∧ scan suffix [] (base stem) = st ∧ f.tail = suffix ∧
      f.pkg = (if st.pkg = [] then st.p else st.pkg) ∧
      ((st.what ≠ [] ∧ f.what = st.what ∧
          f.ver = (if st.ver ≠ [] then st.ver else "0.0".toList)) ∨
        (st.what = [] ∧ ¬ ends_in_marker st.ver ∧ f.what = [] ∧
          f.ver = (if st.ver ≠ [] then st.ver else "0.0".toList)) ∨
        (st.what = [] ∧ "-src".toList <:+ strlwr st.ver ∧
          f.what = st.ver.drop (st.ver.length - 4 + 1) ∧
          f.ver = (if st.ver.take (st.ver.length - 4) ≠ [] then
            st.ver.take (st.ver.length - 4) else "0.0".toList)) ∨
        (st.what = [] ∧ "-patch".toList <:+ strlwr st.ver ∧
          f.what = st.ver.drop (st.ver.length - 6 + 1) ∧
          f.ver = (if st.ver.take (st.ver.length - 6) ≠ [] then
            st.ver.take (st.ver.length - 6) else "0.0".toList))) := by
  by_cases hn : find_tar_ext in_fn = 0
  · simp [parse_filename, hn] at h
  · obtain ⟨hs, hsuf⟩ := find_tar_ext_suffix in_fn hn
    have hsplit : in_fn = in_fn.take (find_tar_ext in_fn) ++ in_fn.drop (find_tar_ext in_fn) :=
      (List.take_append_drop _ _).symm
    generalize in_fn.take (find_tar_ext in_fn) = stem at hs hsplit
    generalize in_fn.drop (find_tar_ext in_fn) = suffix at hsuf hsplit
    subst hsplit
    refine ⟨stem, suffix, scan suffix [] (base stem), hs, hsuf, rfl, rfl, ?_⟩
    by_cases hw : (scan suffix [] (base stem)).what = []
    · by_cases h4 : "-src".toList <:+ strlwr (scan suffix [] (base stem)).ver
      · rw [parse_filename_of_src stem suffix hs hsuf _ rfl hw h4] at h
        cases h
        exact ⟨rfl, rfl, Or.inr (Or.inr (Or.inl ⟨hw, h4, rfl, rfl⟩))⟩
      · by_cases h6 : "-patch".toList <:+ strlwr (scan suffix [] (base stem)).ver
        · rw [parse_filename_of_patch stem suffix hs hsuf _ rfl hw h4 h6] at h
          cases h
          exact ⟨rfl, rfl, Or.inr (Or.inr (Or.inr ⟨hw, h6, rfl, rfl⟩))⟩
        · have hm : ¬ ends_in_marker (scan suffix [] (base stem)).ver := by
            rintro (h' | h')
            · exact h4 h'
            · exact h6 h'
          rw [parse_filename_of_plain stem suffix hs hsuf _ rfl hw hm] at h
          cases h
          exact ⟨rfl, rfl, Or.inr (Or.inl ⟨hw, hm, rfl, rfl⟩)⟩
    · rw [parse_filename_of_what stem suffix hs hsuf _ rfl hw] at h
      cases h
      exact ⟨rfl, rfl, Or.inl ⟨hw, rfl, rfl⟩⟩

theorem flatMap_dump_line_length (argv : Option (List (List Char)))
    (l : List (List Char)) : (l.flatMap (dump_line argv)).length ≤ 2 * l.length := by
  induction l with
  | nil => simp
  | cons buf l ih =>
    have := dump_line_length argv buf
    simp only [List.flatMap_cons, List.length_append, List.length_cons]
    omega

/-- The state of the loop after the lines `l1`: the records of those lines
have been appended. -/
theorem read_loop_append (argv : Option (List (List Char))) (nlines : Nat)
    (l1 l2 : List (List Char)) (packages : List pkgver)
    (h : packages.length + 2 * l1.length ≤ nlines) :
    read_loop argv nlines (l1 ++ l2) packages =
      read_loop argv nlines l2 (packages ++ l1.flatMap (dump_line argv)) := by
  induction l1 generalizing packages with
  | nil => simp
  | cons buf l1 ih =>
    have hlen := dump_line_length argv buf
    simp only [List.length_cons] at h
    have hlt : packages.length < nlines := by omega
    rw [List.cons_append, read_loop, if_pos hlt, ih]
    · simp
    · simp only [List.length_append]
      omega

/-! ## The shape of what `base` and the loop return -/

theorem is_dir_concat (pre : List Char) (c : Char) (hc : c = '/' ∨ c = ':' ∨ c = '\\') :
    is_dir (pre ++ [c]) := by
  right
  rcases hc with h | h | h <;> subst h <;> simp

theorem no_sep_dropLast {x : List Char} (h : no_sep x) : no_sep x.dropLast :=
  fun c hc => h c (List.dropLast_subset x hc)

theorem base_loop_shape (pre x s : List Char) (hpre : is_dir pre) (hx : no_sep x) :
    ∃ dir, is_dir dir ∧ pre ++ x ++ s = dir ++ base_loop (x ++ s) s ∧
      no_sep (base_loop (x ++ s) s).dropLast := by
  induction s generalizing pre x with
  | nil =>
    refine ⟨pre, hpre, by simp [base_loop], ?_⟩
    simpa [base_loop] using no_sep_dropLast hx
  | cons c s ih =>
    by_cases hc : c = '/' ∨ c = ':' ∨ c = '\\'
    · by_cases hs : s = []
      · subst hs
        refine ⟨pre, hpre, ?_, ?_⟩
        · simp [base_loop]
        · have hb : base_loop (x ++ [c]) [c] = x ++ [c] := by simp [base_loop]
          rw [hb, List.dropLast_concat]
          exact hx
      · obtain ⟨dir, hd, heq, hns⟩ := ih (pre ++ x ++ [c]) [] (is_dir_concat _ c hc)
          (by intro a ha; simp at ha)
        have hb : base_loop (x ++ c :: s) (c :: s) = base_loop s s := by
          rw [base_loop, if_pos ⟨hc, hs⟩]
        rw [hb]
        refine ⟨dir, hd, ?_, by simpa using hns⟩
        simpa using heq
    · have hxc : no_sep (x ++ [c]) := by
        apply no_sep_append hx
        intro a ha
        rw [List.mem_singleton] at ha
        subst ha
        push_neg at hc
        exact hc
      obtain ⟨dir, hd, heq, hns⟩ := ih pre (x ++ [c]) hpre hxc
      have hb : base_loop (x ++ c :: s) (c :: s) = base_loop (x ++ [c] ++ s) s := by
        rw [base_loop, if_neg (fun h => hc h.1)]
        simp
      rw [hb]
      refine ⟨dir, hd, ?_, hns⟩
      simpa using heq

/-- What `base` returns: the name is a directory prefix followed by it, and it
holds no path separator before its last character. -/
theorem base_shape (s : List Char) :
    ∃ dir, is_dir dir ∧ s = dir ++ base s ∧ no_sep (base s).dropLast := by
  obtain ⟨dir, hd, heq, hns⟩ := base_loop_shape [] [] s (Or.inl rfl)
    (by intro a ha; simp at ha)
  exact ⟨dir, hd, by simpa [base] using heq, by simpa [base] using hns⟩

theorem tolower_eq_dash {c : Char} (h : tolower c = '-') : c = '-' := by
  unfold tolower at h
  split_ifs at h with hu
  · exfalso
    have hc := Char.ofNat_toNat c
    obtain ⟨h1, h2⟩ := hu
    generalize c.toNat = n at h h1 h2 hc
    interval_cases n <;> revert h <;> decide
  · exact h

theorem has_dash_digit_split (a : List Char) (d : Char) (v : List Char)
    (hd : isdigit d = true) : has_dash_digit (a ++ '-' :: d :: v) = true := by
  induction a with
  | nil => simp [has_dash_digit, hd]
  | cons c a ih => simp [has_dash_digit, ih]

theorem has_dash_digit_no_dash (s : List Char) (h : '-' ∉ s) : has_dash_digit s = false := by
  induction s with
  | nil => rfl
  | cons c s ih =>
    have hc : c ≠ '-' := fun e => h (e ▸ List.mem_cons_self c s)
    have hs : '-' ∉ s := fun e => h (List.mem_cons_of_mem c e)
    simp [has_dash_digit, hc, ih hs]

theorem no_dash_of_strlwr {V lit : List Char} (h : strlwr V = lit) (hl : '-' ∉ lit) :
    '-' ∉ V := by
  intro hm
  apply hl
  rw [← h]
  have := List.mem_map_of_mem tolower hm
  rwa [tolower_dash] at this

/-- The three ways the loop of `parse_filename` is left: at a dash-digit, at a
bare variant marker, or at the end of the name. -/
theorem scan_shape (tail pre s : List Char) :
    (∃ a d v, s = a ++ '-' :: d :: v ∧ isdigit d = true ∧
        scan tail pre s =
          { pkg := pre ++ a, what := [], pkgtar := [], p := pre ++ a, ver := d :: v,
            verOff := (pre ++ a).length + 1 }) ∨
      (∃ a V, s = a ++ '-' :: V ∧ (strlwr V = "src".toList ∨ strlwr V = "patch".toList) ∧
        has_dash_digit s = false ∧
        scan tail pre s =
          { pkg := pre ++ a, what := strlwr V, pkgtar := pre ++ a ++ tail, p := pre ++ a,
            ver := [], verOff := (pre ++ a).length + 1 + V.length }) ∨
      (has_dash_digit s = false ∧
        scan tail pre s =
          { pkg := [], what := [], pkgtar := [], p := pre ++ s, ver := [],
            verOff := (pre ++ s).length }) := by
  induction s generalizing pre with
  | nil => exact Or.inr (Or.inr ⟨rfl, by simp [scan]⟩)
  | cons c rest ih =>
    by_cases hstop : c = '-' ∧ (rest.head?.map isdigit).getD false = true
    · obtain ⟨hc, hd⟩ := hstop
      subst hc
      cases rest with
      | nil => simp at hd
      | cons d v =>
        have hd' : isdigit d = true := by simpa using hd
        exact Or.inl ⟨[], d, v, rfl, hd', by simpa using scan_digit tail pre d v hd'⟩
    · have hhead : (c == '-' && (rest.head?.map isdigit).getD false) = false := by
        by_cases hc : c = '-'
        · have : (rest.head?.map isdigit).getD false = false := by
            cases hx : (rest.head?.map isdigit).getD false
            · rfl
            · exact absurd ⟨hc, hx⟩ hstop
          simp [this]
        · simp [hc]
      by_cases hmark : c = '-' ∧ (strcasecmp (c :: rest) "-src".toList = 0 ∨
          strcasecmp (c :: rest) "-patch".toList = 0)
      · obtain ⟨hc, hm⟩ := hmark
        subst hc
        have hV : strlwr rest = "src".toList ∨ strlwr rest = "patch".toList := by
          rw [strcasecmp_eq_zero_iff, strcasecmp_eq_zero_iff, strlwr_dash_src,
            strlwr_dash_patch] at hm
          rcases hm with h | h
          · left
            simp only [strlwr, List.map_cons, dash_src_chars, List.cons.injEq] at h
            exact h.2
          · right
            simp only [strlwr, List.map_cons, dash_patch_chars, List.cons.injEq] at h
            exact h.2
        have hnd : '-' ∉ rest := by
          rcases hV with h | h
          · exact no_dash_of_strlwr h (by decide)
          · exact no_dash_of_strlwr h (by decide)
        have hdd : has_dash_digit ('-' :: rest) = false := by
          simp only [has_dash_digit, Bool.or_eq_false_iff]
          exact ⟨hhead, has_dash_digit_no_dash rest hnd⟩
        exact Or.inr (Or.inl ⟨[], rest, rfl, hV, hdd,
          by simpa using scan_marker tail pre rest hV⟩)
      · have hstep : scan tail pre (c :: rest) = scan tail (pre ++ [c]) rest := by
          by_cases hc : c = '-'
          · subst hc
            have hd : (rest.head?.map isdigit).getD false = false := by simpa using hhead
            rw [scan, if_pos rfl, hd, if_neg (by simp), if_neg (fun h => hmark ⟨rfl, h⟩)]
          · rw [scan, if_neg hc]
        have hdd : ∀ b, has_dash_digit rest = b → has_dash_digit (c :: rest) = b := by
          intro b hb
          simp only [has_dash_digit, hhead, hb, Bool.false_or]
        rcases ih (pre ++ [c]) with ⟨a, d, v, hs, hd, hsc⟩ | ⟨a, V, hs, hV, hnd, hsc⟩ | ⟨hnd, hsc⟩
        · refine Or.inl ⟨c :: a, d, v, by rw [hs]; rfl, hd, ?_⟩
          rw [hstep, hsc]
          simp
        · refine Or.inr (Or.inl ⟨c :: a, V, by rw [hs]; rfl, hV, hdd _ hnd, ?_⟩)
          rw [hstep, hsc]
          simp
        · refine Or.inr (Or.inr ⟨hdd _ hnd, ?_⟩)
          rw [hstep, hsc]
          simp

/-- A version that begins with a digit and ends in a marker `-lit`, letter case
ignored: what stands before the marker is not empty, the marker starts with a
real `-`, and the rest of it is `lit` up to letter case. -/
theorem strip_marker (d : Char) (v lit : List Char) (hd : isdigit d = true) (k : Nat)
    (hk : k = lit.length + 1) (hl : '-' :: lit <:+ strlwr (d :: v)) :
    (d :: v).take ((d :: v).length - k) ≠ [] ∧
      d :: v = (d :: v).take ((d :: v).length - k) ++
        '-' :: (d :: v).drop ((d :: v).length - k + 1) ∧
      strlwr ((d :: v).drop ((d :: v).length - k + 1)) = lit := by
  generalize hver : d :: v = ver at hl ⊢
  have hM : strlwr (ver.drop (ver.length - k)) = '-' :: lit := by
    have := List.suffix_iff_eq_drop.mp hl
    simp only [strlwr, List.length_map, List.length_cons, List.map_drop] at this ⊢
    rw [hk]
    exact this.symm
  have hdrop : ver.drop (ver.length - k + 1) = (ver.drop (ver.length - k)).drop 1 := by
    rw [List.drop_drop]
  cases hMM : ver.drop (ver.length - k) with
  | nil =>
    rw [hMM] at hM
    simp [strlwr] at hM
  | cons m0 M =>
    rw [hMM] at hM
    simp only [strlwr, List.map_cons, List.cons.injEq] at hM
    have hm0 : m0 = '-' := tolower_eq_dash hM.1
    subst hm0
    have hsplit : ver = ver.take (ver.length - k) ++ '-' :: M := by
      rw [← hMM]
      exact (List.take_append_drop _ _).symm
    refine ⟨?_, ?_, ?_⟩
    · intro hnil
      rw [hnil, List.nil_append] at hsplit
      rw [← hver] at hsplit
      simp only [List.cons.injEq] at hsplit
      rw [hsplit.1] at hd
      revert hd
      decide
    · rw [hdrop, hMM]
      exact hsplit
    · rw [hdrop, hMM]
      exact hM.2

/-! ## The parser on the strings it computes -/

/-- The two `src` forms, on the strings `parse_filename` computes. -/
theorem src_forms_strings (name : List Char) (d : Char) (v : List Char)
    (hsep : no_sep name) (hdd : has_dash_digit name = false) (hd : isdigit d = true)
    (hvsep : no_sep v) :
    (∃ f, parse_filename (name ++ "-".toList ++ (d :: v) ++ "-src.tar.bz2".toList) = some f ∧
        f.pkg = name ∧ f.ver = d :: v ∧ f.what = "src".toList) ∧
      (¬ ends_in_marker (d :: v) →
        parse_filename (name ++ "-src-".toList ++ (d :: v) ++ ".tar.bz2".toList) =
          some { pkgtar := name ++ "-src-".toList ++ (d :: v) ++ ".tar.bz2".toList,
                 pkg := name ++ "-src".toList, ver := d :: v, tail := ".tar.bz2".toList,
                 what := [] }) := by
  have hdsep : no_sep (d :: v) :=
    no_sep_append (a := [d]) (fun c hc => by
      rw [List.mem_singleton] at hc
      subst hc
      exact no_sep_of_isdigit hd) hvsep
  constructor
  · have hin : name ++ "-".toList ++ (d :: v) ++ "-src.tar.bz2".toList =
        (name ++ '-' :: ((d :: v) ++ "-src".toList)) ++ ".tar.bz2".toList := by
      simp
    have hs : name ++ '-' :: ((d :: v) ++ "-src".toList) ≠ [] := by simp
    have hssep : no_sep (name ++ '-' :: ((d :: v) ++ "-src".toList)) :=
      no_sep_append hsep (no_sep_append (a := ['-']) (by decide)
        (no_sep_append hdsep (by decide)))
    have hst : scan ".tar.bz2".toList [] (base (name ++ '-' :: ((d :: v) ++ "-src".toList))) =
        { pkg := name, what := [], pkgtar := [], p := name,
          ver := (d :: v) ++ "-src".toList, verOff := name.length + 1 } := by
      rw [base_no_sep _ hssep, scan_skip _ [] name _ hdd, List.cons_append,
        scan_digit _ _ d _ hd]
      simp
    have hm : "-src".toList <:+ strlwr ((d :: v) ++ "-src".toList) := by
      rw [strlwr_append, strlwr_dash_src]
      exact List.suffix_append _ _
    rw [hin, parse_filename_of_src _ _ hs (Or.inr rfl) _ hst rfl hm]
    refine ⟨_, rfl, ?_, ?_, ?_⟩
    · simp
    · simp only [take_strip_src]
      simp
    · simp only [drop_strip_src]
  · intro hvm
    have hin : name ++ "-src-".toList ++ (d :: v) ++ ".tar.bz2".toList =
        ((name ++ "-src".toList) ++ '-' :: d :: v) ++ ".tar.bz2".toList := by
      simp
    have hs : (name ++ "-src".toList) ++ '-' :: d :: v ≠ [] := by simp
    have hssep : no_sep ((name ++ "-src".toList) ++ '-' :: d :: v) :=
      no_sep_append (no_sep_append hsep (by decide))
        (no_sep_append (a := ['-']) (by decide) hdsep)
    have hdd2 : has_dash_digit (name ++ "-src".toList) = false :=
      has_dash_digit_append _ _ hdd (by decide) (by decide)
    have hst : scan ".tar.bz2".toList [] (base ((name ++ "-src".toList) ++ '-' :: d :: v)) =
        { pkg := name ++ "-src".toList, what := [], pkgtar := [],
          p := name ++ "-src".toList, ver := d :: v,
          verOff := (name ++ "-src".toList).length + 1 } := by
      rw [base_no_sep _ hssep, scan_skip _ [] _ _ hdd2, scan_digit _ _ d _ hd]
      simp
    rw [hin, parse_filename_of_plain _ _ hs (Or.inr rfl) _ hst rfl hvm]
    simp

/-- A name followed by a digit string, on the strings `parse_filename` computes. -/
theorem name_digits_strings (name d : List Char) (hsep : no_sep name)
    (hdd : has_dash_digit name = false) (hne : d ≠ [])
    (hdig : ∀ c ∈ d, isdigit c = true) :
    parse_filename (name ++ "-".toList ++ d ++ ".tar.gz".toList) =
      some { pkgtar := name ++ "-".toList ++ d ++ ".tar.gz".toList, pkg := name, ver := d,
             tail := ".tar.gz".toList, what := [] } := by
  obtain ⟨c, v, rfl⟩ := List.exists_cons_of_ne_nil hne
  have hc : isdigit c = true := hdig c (List.mem_cons_self c v)
  have hstem : name ++ "-".toList ++ c :: v = name ++ '-' :: c :: v := by simp
  rw [hstem]
  have hs : name ++ '-' :: c :: v ≠ [] := by simp
  have hssep : no_sep (name ++ '-' :: c :: v) :=
    no_sep_append hsep (no_sep_append (a := ['-']) (by decide) (no_sep_digits _ hdig))
  have hst : scan ".tar.gz".toList [] (base (name ++ '-' :: c :: v)) =
      { pkg := name, what := [], pkgtar := [], p := name, ver := c :: v,
        verOff := name.length + 1 } := by
    rw [base_no_sep _ hssep, scan_skip _ [] name _ hdd, scan_digit _ _ c v hc]
    simp
  rw [parse_filename_of_plain _ _ hs (Or.inl rfl) _ hst rfl
    (not_ends_in_marker_digits _ hdig)]
  simp

/-- A last component without version and without marker, on the strings
`parse_filename` computes. -/
theorem no_version_strings (dir comp suffix : List Char)
    (hsuf : suffix = ".tar.gz".toList ∨ suffix = ".tar.bz2".toList)
    (hdir : is_dir dir) (hne : comp ≠ []) (hsep : no_sep comp)
    (hdd : has_dash_digit comp = false) (hm : ¬ ends_in_marker comp) :
    parse_filename (dir ++ comp ++ suffix) =
      some { pkgtar := dir ++ comp ++ suffix, pkg := comp, ver := "0.0".toList,
             tail := suffix, what := [] } := by
  have hs : dir ++ comp ≠ [] := by simp [hne]
  have hst : scan suffix [] (base (dir ++ comp)) =
      { pkg := [], what := [], pkgtar := [], p := comp, ver := [],
        verOff := comp.length } := by
    rw [base_dir dir comp hdir hne hsep, scan_none suffix [] comp hdd hm]
    simp
  rw [parse_filename_of_plain (dir ++ comp) suffix hs hsuf _ hst rfl not_ends_in_marker_nil]
  simp

/-- A last component that ends in a bare variant marker, on the strings
`parse_filename` computes. -/
theorem bare_variant_strings (dir b V suffix : List Char)
    (hsuf : suffix = ".tar.gz".toList ∨ suffix = ".tar.bz2".toList)
    (hdir : is_dir dir) (hsep : no_sep b) (hdd : has_dash_digit b = false)
    (hV : strlwr V = "src".toList ∨ strlwr V = "patch".toList) :
    parse_filename (dir ++ (b ++ "-".toList ++ V) ++ suffix) =
      some { pkgtar := b ++ suffix, pkg := b, ver := "0.0".toList, tail := suffix,
             what := strlwr V } := by
  have hcomp : b ++ "-".toList ++ V = b ++ '-' :: V := by simp
  rw [hcomp]
  have hne : b ++ '-' :: V ≠ [] := by simp
  have hs : dir ++ (b ++ '-' :: V) ≠ [] := by simp
  have hcsep : no_sep (b ++ '-' :: V) := no_sep_append hsep (no_sep_marker hV)
  have hw : strlwr V ≠ [] := by
    rcases hV with h | h <;> rw [h] <;> decide
  have hst : scan suffix [] (base (dir ++ (b ++ '-' :: V))) =
      { pkg := b, what := strlwr V, pkgtar := b ++ suffix, p := b, ver := [],
        verOff := b.length + 1 + V.length } := by
    rw [base_dir dir _ hdir hne hcsep, scan_skip suffix [] b V hdd, scan_marker suffix _ V hV]
    simp
  rw [parse_filename_of_what (dir ++ (b ++ '-' :: V)) suffix hs hsuf _ hst hw]
  simp

/-- The strings `parse_filename` computes put the name together again. -/
theorem decomposition_strings (in_fn : List Char) (f : fileparse)
    (h : parse_filename in_fn = some f) :
    ∃ dir body marker : List Char,
      in_fn = dir ++ body ++ f.tail ∧ is_dir dir ∧ no_sep body.dropLast ∧
      (f.tail = ".tar.gz".toList ∨ f.tail = ".tar.bz2".toList) ∧
      strlwr marker = strlwr f.what ∧
      body = f.pkg ++ (if has_dash_digit body then "-".toList ++ f.ver else []) ++
        (if f.what ≠ [] then "-".toList ++ marker else []) ∧
      (has_dash_digit body = false → f.ver = "0.0".toList) := by
  obtain ⟨stem, suffix, st, hs, hsuf, hin, hst, htail, hpkg, hcases⟩ :=
    parse_filename_cases in_fn f h
  obtain ⟨dir, hdir, hstem, hns⟩ := base_shape stem
  have hin2 : in_fn = dir ++ base stem ++ f.tail := by
    rw [hin, htail, ← hstem]
  rw [← htail] at hsuf
  have hdash : "-".toList = ['-'] := rfl
  rcases scan_shape suffix [] (base stem) with
    ⟨a, d, v, hb, hd, hsc⟩ | ⟨a, V, hb, hV, hnd, hsc⟩ | ⟨hnd, hsc⟩
  · -- the loop stopped at a dash-digit
    rw [hst] at hsc
    have hdd : has_dash_digit (base stem) = true := by
      rw [hb]
      exact has_dash_digit_split a d v hd
    have hpkg' : f.pkg = a := by
      rw [hpkg, hsc]
      simp
    rcases hcases with ⟨hw, -⟩ | ⟨-, -, hwhat, hver⟩ | ⟨-, hm, hwhat, hver⟩ |
      ⟨-, hm, hwhat, hver⟩
    · rw [hsc] at hw
      exact absurd rfl hw
    · rw [hsc] at hver
      simp only [ne_eq, reduceCtorEq, not_false_eq_true, if_true] at hver
      refine ⟨dir, base stem, [], hin2, hdir, hns, hsuf, by rw [hwhat], ?_, ?_⟩
      · rw [hdd, hwhat, hpkg', hver, hb]
        simp [hdash]
      · intro hno
        rw [hdd] at hno
        exact absurd hno (by decide)
    · rw [hsc] at hm hwhat hver
      simp only at hm hwhat hver
      obtain ⟨hne, hsplit, hlw⟩ := strip_marker d v "src".toList hd 4 rfl hm
      rw [if_pos hne] at hver
      have hwne : f.what ≠ [] := by
        intro hnil
        rw [← hwhat, hnil] at hlw
        revert hlw
        decide
      refine ⟨dir, base stem, f.what, hin2, hdir, hns, hsuf, rfl, ?_, ?_⟩
      · rw [hdd, if_pos hwne, hpkg', hver, hwhat]
        simp only [if_true, hdash]
        rw [hb]
        conv_lhs => rw [hsplit]
        simp
      · intro hno
        rw [hdd] at hno
        exact absurd hno (by decide)
    · rw [hsc] at hm hwhat hver
      simp only at hm hwhat hver
      obtain ⟨hne, hsplit, hlw⟩ := strip_marker d v "patch".toList hd 6 rfl hm
      rw [if_pos hne] at hver
      have hwne : f.what ≠ [] := by
        intro hnil
        rw [← hwhat, hnil] at hlw
        revert hlw
        decide
      refine ⟨dir, base stem, f.what, hin2, hdir, hns, hsuf, rfl, ?_, ?_⟩
      · rw [hdd, if_pos hwne, hpkg', hver, hwhat]
        simp only [if_true, hdash]
        rw [hb]
        conv_lhs => rw [hsplit]
        simp
      · intro hno
        rw [hdd] at hno
        exact absurd hno (by decide)
  · -- the loop stopped at a bare variant marker
    rw [hst] at hsc
    have hpkg' : f.pkg = a := by
      rw [hpkg, hsc]
      simp
    have hwst : st.what ≠ [] := by
      rw [hsc]
      rcases hV with h' | h' <;> simp only [h'] <;> decide
    rcases hcases with ⟨-, hwhat, hver⟩ | ⟨hw, -⟩ | ⟨hw, -⟩ | ⟨hw, -⟩
    · rw [hsc] at hwhat hver
      simp only [ne_eq, not_true_eq_false, if_false] at hver
      simp only at hwhat
      have hwne : f.what ≠ [] := by
        rw [hwhat]
        rw [hsc] at hwst
        simpa using hwst
      have hidem : strlwr V = strlwr f.what := by
        rw [hwhat]
        rcases hV with h' | h' <;> rw [h'] <;> decide
      refine ⟨dir, base stem, V, hin2, hdir, hns, hsuf, hidem, ?_, fun _ => hver⟩
      rw [hnd, if_pos hwne, hpkg', hb]
      simp [hdash]
    · exact absurd hw hwst
    · exact absurd hw hwst
    · exact absurd hw hwst
  · -- the loop ran to the end of the name
    rw [hst] at hsc
    have hpkg' : f.pkg = base stem := by
      rw [hpkg, hsc]
      simp
    rcases hcases with ⟨hw, -⟩ | ⟨-, -, hwhat, hver⟩ | ⟨-, hm, -⟩ | ⟨-, hm, -⟩
    · rw [hsc] at hw
      exact absurd rfl hw
    · rw [hsc] at hver
      simp only [ne_eq, not_true_eq_false, if_false] at hver
      refine ⟨dir, base stem, [], hin2, hdir, hns, hsuf, by rw [hwhat], ?_, fun _ => hver⟩
      rw [hnd, hwhat, hpkg']
      simp
    · rw [hsc] at hm
      exact absurd (Or.inl hm) not_ends_in_marker_nil
    · rw [hsc] at hm
      exact absurd (Or.inr hm) not_ends_in_marker_nil

/-! ## The buffers are large enough for names of at most `MAX_PATH` characters -/

theorem parse_filename_of_parsed {in_fn : List Char} {f : fileparse}
    (h : parse_filename_checked in_fn = parse_outcome.parsed f) :
    parse_filename in_fn = some f := by
  unfold parse_filename_checked at h
  cases hp : parse_filename in_fn with
  | none =>
    rw [hp] at h
    exact absurd h (by simp)
  | some g =>
    rw [hp] at h
    simp only at h
    split_ifs at h
    cases h
    rfl

theorem memmove_length (buf : List Char) (dst src : Nat) (h : dst ≤ src) :
    (memmove buf dst src (buf.length - src)).length = buf.length := by
  simp only [memmove, List.length_append, List.length_take, List.length_drop]
  omega

theorem strlwr_length (s : List Char) : (strlwr s).length = s.length := by
  simp [strlwr]

/-- What the loop copies is never longer than the name it scans, and a variant
it finds has at most five characters. -/
theorem scan_bounds (tail s : List Char) :
    (scan tail [] s).pkg.length ≤ s.length ∧ (scan tail [] s).p.length ≤ s.length ∧
      (scan tail [] s).ver.length ≤ s.length ∧ (scan tail [] s).what.length ≤ 5 ∧
      (scan tail [] s).pkgtar.length ≤ s.length + tail.length := by
  rcases scan_shape tail [] s with ⟨a, d, v, hs, -, hsc⟩ | ⟨a, V, hs, hV, -, hsc⟩ | ⟨-, hsc⟩
  · rw [hsc, hs]
    simp only [List.nil_append, List.length_append, List.length_cons, List.length_nil]
    omega
  · have hlen : V.length ≤ 5 := by
      rcases hV with h | h
      · have := congrArg List.length h
        rw [strlwr_length] at this
        rw [this]
        decide
      · have := congrArg List.length h
        rw [strlwr_length] at this
        rw [this]
        decide
    rw [hsc, hs]
    simp only [List.nil_append, List.length_append, List.length_cons, strlwr_length,
      List.length_nil]
    omega
  · rw [hsc]
    simp

theorem base_length_le (s : List Char) : (base s).length ≤ s.length := by
  obtain ⟨dir, -, heq, -⟩ := base_shape s
  have := congrArg List.length heq
  rw [List.length_append] at this
  omega

/-- On a name of at most `MAX_PATH` characters no copy of `parse_filename`
leaves its array: the call returns 0 or fills the fields as computed. -/
theorem parse_filename_checked_of_le (in_fn : List Char) (hle : in_fn.length ≤ MAX_PATH) :
    parse_filename_checked in_fn =
      match parse_filename in_fn with
      | none => parse_outcome.rejected
      | some f => parse_outcome.parsed f := by
  unfold parse_filename_checked
  cases hp : parse_filename in_fn with
  | none => rfl
  | some f =>
    simp only
    rw [if_pos]
    have hmax : MAX_PATH = 260 := rfl
    by_cases hn : find_tar_ext in_fn = 0
    · simp [parse_filename, hn] at hp
    · obtain ⟨hs, hsuf⟩ := find_tar_ext_suffix in_fn hn
      have hsplit : in_fn = in_fn.take (find_tar_ext in_fn) ++ in_fn.drop (find_tar_ext in_fn) :=
        (List.take_append_drop _ _).symm
      generalize in_fn.take (find_tar_ext in_fn) = stem at hs hsplit
      generalize in_fn.drop (find_tar_ext in_fn) = suffix at hsuf hsplit
      subst hsplit
      obtain ⟨b1, b2, b3, b4, b5⟩ := scan_bounds suffix (base stem)
      have hb := base_length_le stem
      rw [List.length_append] at hle
      have hsuflen : suffix.length ≤ 8 := by
        rcases hsuf with h | h <;> rw [h] <;> decide
      have hzero : "0.0".toList.length = 3 := rfl
      by_cases hw : (scan suffix [] (base stem)).what = []
      · by_cases h4 : "-src".toList <:+ strlwr (scan suffix [] (base stem)).ver
        · rw [parse_filename_of_src stem suffix hs hsuf _ rfl hw h4] at hp
          cases hp
          simp only
          refine ⟨?_, ?_, ?_, ?_, ?_⟩
          · rw [memmove_length _ _ _ (by omega), List.length_append]
            omega
          · split_ifs <;> omega
          · split_ifs
            · rw [List.length_take]
              omega
            · omega
          · omega
          · rw [List.length_drop]
            omega
        · by_cases h6 : "-patch".toList <:+ strlwr (scan suffix [] (base stem)).ver
          · rw [parse_filename_of_patch stem suffix hs hsuf _ rfl hw h4 h6] at hp
            cases hp
            simp only
            refine ⟨?_, ?_, ?_, ?_, ?_⟩
            · rw [memmove_length _ _ _ (by omega), List.length_append]
              omega
            · split_ifs <;> omega
            · split_ifs
              · rw [List.length_take]
                omega
              · omega
            · omega
            · rw [List.length_drop]
              omega
          · have hm : ¬ ends_in_marker (scan suffix [] (base stem)).ver := by
              rintro (h' | h')
              · exact h4 h'
              · exact h6 h'
            rw [parse_filename_of_plain stem suffix hs hsuf _ rfl hw hm] at hp
            cases hp
            simp only
            refine ⟨?_, ?_, ?_, ?_, ?_⟩
            · rw [List.length_append]
              omega
            · split_ifs <;> omega
            · split_ifs <;> omega
            · omega
            · simp
      · rw [parse_filename_of_what stem suffix hs hsuf _ rfl hw] at hp
        cases hp
        simp only
        refine ⟨?_, ?_, ?_, ?_, ?_⟩
        · omega
        · split_ifs <;> omega
        · split_ifs <;> omega
        · omega
        · omega

/-! ## More on the parser and on the inner loop -/

/-- After a stop at a dash-digit the package base is what stood before the
dash, whatever the second marker test finds; without a trailing marker the
version and the name are kept whole. -/
theorem parse_filename_at_digit (stem suffix : List Char) (hs : stem ≠ [])
    (hsuf : suffix = ".tar.gz".toList ∨ suffix = ".tar.bz2".toList) (a : List Char)
    (d : Char) (v : List Char) (k : Nat)
    (hst : scan suffix [] (base stem) =
      { pkg := a, what := [], pkgtar := [], p := a, ver := d :: v, verOff := k }) :
    ∃ f, parse_filename (stem ++ suffix) = some f ∧ f.pkg = a ∧
      (¬ ends_in_marker (d :: v) →
        f.ver = d :: v ∧ f.what = [] ∧ f.pkgtar = stem ++ suffix) := by
  by_cases h4 : "-src".toList <:+ strlwr (d :: v)
  · refine ⟨_, parse_filename_of_src stem suffix hs hsuf _ hst rfl h4, by simp, ?_⟩
    intro hm
    exact absurd (Or.inl h4) hm
  · by_cases h6 : "-patch".toList <:+ strlwr (d :: v)
    · refine ⟨_, parse_filename_of_patch stem suffix hs hsuf _ hst rfl h4 h6, by simp, ?_⟩
      intro hm
      exact absurd (Or.inr h6) hm
    · have hm : ¬ ends_in_marker (d :: v) := by
        rintro (h' | h')
        · exact h4 h'
        · exact h6 h'
      refine ⟨_, parse_filename_of_plain stem suffix hs hsuf _ hst rfl hm, by simp, ?_⟩
      intro _
      simp

theorem parsed_of_le {in_fn : List Char} {f : fileparse} (hle : in_fn.length ≤ MAX_PATH)
    (h : parse_filename in_fn = some f) :
    parse_filename_checked in_fn = parse_outcome.parsed f := by
  rw [parse_filename_checked_of_le in_fn hle, h]

/-- A token with the newline of its line attached does not end in a tarball
suffix: `parse_filename` returns 0 on it. -/
theorem parse_filename_newline (t : List Char) : parse_filename (t ++ ['\n']) = none := by
  have h1 : ¬ ".tar.gz".toList <:+ t ++ ['\n'] := by
    intro h
    rw [← List.reverse_prefix, List.reverse_append] at h
    simp only [tar_gz_chars, List.reverse_cons, List.reverse_nil, List.nil_append,
      List.cons_append, List.singleton_append] at h
    rw [List.cons_prefix_cons] at h
    exact absurd h.1 (by decide)
  have h2 : ¬ ".tar.bz2".toList <:+ t ++ ['\n'] := by
    intro h
    rw [← List.reverse_prefix, List.reverse_append] at h
    simp only [tar_bz2_chars, List.reverse_cons, List.reverse_nil, List.nil_append,
      List.cons_append, List.singleton_append] at h
    rw [List.cons_prefix_cons] at h
    exact absurd h.1 (by decide)
  unfold parse_filename
  simp only [find_tar_ext_eq_zero _ h1 h2, if_true]

/-- One turn of the inner loop on a last token that `parse_filename` rejects. -/
theorem archive_loop_reject (package : List Char) (k : Nat) (tar : List Char)
    (hne : tar ≠ []) (hs : ' ' ∉ tar) (hp : parse_filename tar = none) :
    archive_loop package (k + 1) tar = [] := by
  rw [archive_loop, strtok_last tar hne hs]
  simp only [hp]

/-! ## The counters and the array of the record reader -/

set_option maxRecDepth 100000

/-- C1, amended: take a name without path separator and without dash-digit and
a version that begins with a digit and has no path separator, such that the
two file names, which are equally long, have at most `MAX_PATH` characters.
Then `<name>-<version>-src.tar.bz2` parses to base `<name>`, version
`<version>` and variant `src`.  The name `<name>-src-<version>.tar.bz2` parses
too, but to the base `<name>-src`; when the version has no trailing marker of
its own, its version is `<version>` and its variant is empty. -/
theorem parse_filename_src_forms (name : List Char) (d : Char) (v : List Char)
    (hsep : no_sep name) (hdd : has_dash_digit name = false) (hd : isdigit d = true)
    (hvsep : no_sep v) (hlen : name.length + (d :: v).length + 13 ≤ MAX_PATH) :
    (∃ f, parse_filename_checked
          (name ++ "-".toList ++ (d :: v) ++ "-src.tar.bz2".toList) = parse_outcome.parsed f ∧
        f.pkg = name ∧ f.ver = d :: v ∧ f.what = "src".toList) ∧
      (∃ f, parse_filename_checked
          (name ++ "-src-".toList ++ (d :: v) ++ ".tar.bz2".toList) = parse_outcome.parsed f ∧
        f.pkg = name ++ "-src".toList ∧
        (¬ ends_in_marker (d :: v) → f.ver = d :: v ∧ f.what = [])) := by
  have hl1 : (name ++ "-".toList ++ (d :: v) ++ "-src.tar.bz2".toList).length ≤ MAX_PATH := by
    have h12 : "-src.tar.bz2".toList.length = 12 := rfl
    have h1 : "-".toList.length = 1 := rfl
    simp only [List.length_append, h12, h1]
    omega
  have hl2 : (name ++ "-src-".toList ++ (d :: v) ++ ".tar.bz2".toList).length ≤ MAX_PATH := by
    have h8 : ".tar.bz2".toList.length = 8 := rfl
    have h5 : "-src-".toList.length = 5 := rfl
    simp only [List.length_append, h8, h5]
    omega
  constructor
  · obtain ⟨f, hf, h1, h2, h3⟩ := (src_forms_strings name d v hsep hdd hd hvsep).1
    exact ⟨f, parsed_of_le hl1 hf, h1, h2, h3⟩
  · have hdsep : no_sep (d :: v) :=
      no_sep_append (a := [d]) (fun c hc => by
        rw [List.mem_singleton] at hc
        subst hc
        exact no_sep_of_isdigit hd) hvsep
    have hin : name ++ "-src-".toList ++ (d :: v) ++ ".tar.bz2".toList =
        ((name ++ "-src".toList) ++ '-' :: d :: v) ++ ".tar.bz2".toList := by
      simp
    have hs : (name ++ "-src".toList) ++ '-' :: d :: v ≠ [] := by simp
    have hssep : no_sep ((name ++ "-src".toList) ++ '-' :: d :: v) :=
      no_sep_append (no_sep_append hsep (by decide))
        (no_sep_append (a := ['-']) (by decide) hdsep)
    have hdd2 : has_dash_digit (name ++ "-src".toList) = false :=
      has_dash_digit_append _ _ hdd (by decide) (by decide)
    have hst : scan ".tar.bz2".toList [] (base ((name ++ "-src".toList) ++ '-' :: d :: v)) =
        { pkg := name ++ "-src".toList, what := [], pkgtar := [],
          p := name ++ "-src".toList, ver := d :: v,
          verOff := (name ++ "-src".toList).length + 1 } := by
      rw [base_no_sep _ hssep, scan_skip _ [] _ _ hdd2, scan_digit _ _ d _ hd]
      simp
    obtain ⟨f, hf, hpkg, hrest⟩ :=
      parse_filename_at_digit _ _ hs (Or.inr rfl) _ d v _ hst
    rw [← hin] at hf
    exact ⟨f, parsed_of_le hl2 hf, hpkg, fun hm => ⟨(hrest hm).1, (hrest hm).2.1⟩⟩

theorem parse_filename_src_forms_witness :
    (∃ f, parse_filename_checked "foo-1.0-src.tar.bz2".toList = parse_outcome.parsed f ∧
        f.pkg = "foo".toList ∧ f.ver = "1.0".toList ∧ f.what = "src".toList) ∧
      (∃ f, parse_filename_checked "foo-src-1.0.tar.bz2".toList = parse_outcome.parsed f ∧
        f.pkg = "foo-src".toList ∧
        (¬ ends_in_marker "1.0".toList → f.ver = "1.0".toList ∧ f.what = [])) :=
  parse_filename_src_forms "foo".toList '1' ".0".toList (by decide) (by decide) (by decide)
    (by decide) (by decide)

/-- C1 as stated fails: `foo-src-1.0.tar.bz2` parses to the base `foo-src`
with an empty variant, so the two forms do not share the base `foo` and the
variant `src`. -/
theorem parse_filename_src_forms_counterexample :
    parse_filename_checked "foo-src-1.0.tar.bz2".toList =
        parse_outcome.parsed
          { pkgtar := "foo-src-1.0.tar.bz2".toList, pkg := "foo-src".toList,
            ver := "1.0".toList, tail := ".tar.bz2".toList, what := [] } ∧
      ¬ ∃ f, parse_filename_checked ("foo".toList ++ "-src-".toList ++ "1.0".toList ++
            ".tar.bz2".toList) = parse_outcome.parsed f ∧
          f.pkg = "foo".toList ∧ f.ver = "1.0".toList ∧ f.what = "src".toList := by
  refine ⟨by decide, ?_⟩
  rintro ⟨f, hf, hpkg, -, -⟩
  have hev : parse_filename_checked ("foo".toList ++ "-src-".toList ++ "1.0".toList ++
      ".tar.bz2".toList) =
      parse_outcome.parsed
        { pkgtar := "foo-src-1.0.tar.bz2".toList, pkg := "foo-src".toList,
          ver := "1.0".toList, tail := ".tar.bz2".toList, what := [] } := by decide
  rw [hev] at hf
  cases hf
  revert hpkg
  decide

/-- C2, amended: for a name without path separator and without dash-digit, and
a non-empty digit string `d`, such that `<name>-<d>.tar.gz` has at most
`MAX_PATH` characters, that file name parses to package base `<name>`, version
`d` and no variant. -/
theorem parse_filename_name_digits (name d : List Char) (hsep : no_sep name)
    (hdd : has_dash_digit name = false) (hne : d ≠ [])
    (hdig : ∀ c ∈ d, isdigit c = true)
    (hlen : (name ++ "-".toList ++ d ++ ".tar.gz".toList).length ≤ MAX_PATH) :
    parse_filename_checked (name ++ "-".toList ++ d ++ ".tar.gz".toList) =
      parse_outcome.parsed
        { pkgtar := name ++ "-".toList ++ d ++ ".tar.gz".toList, pkg := name, ver := d,
          tail := ".tar.gz".toList, what := [] } :=
  parsed_of_le hlen (name_digits_strings name d hsep hdd hne hdig)

theorem parse_filename_name_digits_witness :
    parse_filename_checked "foo-src-12.tar.gz".toList =
      parse_outcome.parsed
        { pkgtar := "foo-src-12.tar.gz".toList, pkg := "foo-src".toList,
          ver := "12".toList, tail := ".tar.gz".toList, what := [] } :=
  parse_filename_name_digits "foo-src".toList "12".toList (by decide) (by decide) (by decide)
    (by decide) (by decide)

/-- C2 as stated fails: with the name `a-1b` and the digit string `2` the
loop stops at the first dash-digit, so the package base is `a`, not `a-1b`,
and the version `1b-2` does not start with `2`. -/
theorem parse_filename_name_digits_counterexample :
    parse_filename_checked ("a-1b".toList ++ "-".toList ++ "2".toList ++ ".tar.gz".toList) =
        parse_outcome.parsed
          { pkgtar := "a-1b-2.tar.gz".toList, pkg := "a".toList, ver := "1b-2".toList,
            tail := ".tar.gz".toList, what := [] } ∧
      ¬ ∃ f, parse_filename_checked
            ("a-1b".toList ++ "-".toList ++ "2".toList ++ ".tar.gz".toList) =
              parse_outcome.parsed f ∧
          f.pkg = "a-1b".toList ∧ "2".toList <+: f.ver ∧ f.what = [] := by
  refine ⟨by decide, ?_⟩
  rintro ⟨f, hf, hpkg, -, -⟩
  have hev : parse_filename_checked
      ("a-1b".toList ++ "-".toList ++ "2".toList ++ ".tar.gz".toList) =
      parse_outcome.parsed
        { pkgtar := "a-1b-2.tar.gz".toList, pkg := "a".toList, ver := "1b-2".toList,
          tail := ".tar.gz".toList, what := [] } := by decide
  rw [hev] at hf
  cases hf
  revert hpkg
  decide

/-- C3: on `foo-1.0-src.tar.gz` and `foo-1.0-src.tar.bz2` the `memmove` of
`parse_filename` shifts the suffix over `-src` without its terminator, so four
stale characters stay behind it: `pkgtar` is `foo-1.0.tar.gzr.gz` and
`foo-1.0.tar.bz2.bz2`, not `foo-1.0.tar.gz` and `foo-1.0.tar.bz2`. -/
theorem parse_filename_src_pkgtar :
    parse_filename ("foo".toList ++ "-".toList ++ "1.0".toList ++ "-src".toList ++
        ".tar.gz".toList) =
        some { pkgtar := "foo-1.0.tar.gzr.gz".toList, pkg := "foo".toList,
               ver := "1.0".toList, tail := ".tar.gz".toList, what := "src".toList } ∧
      parse_filename ("foo".toList ++ "-".toList ++ "1.0".toList ++ "-src".toList ++
        ".tar.bz2".toList) =
        some { pkgtar := "foo-1.0.tar.bz2.bz2".toList, pkg := "foo".toList,
               ver := "1.0".toList, tail := ".tar.bz2".toList, what := "src".toList } ∧
      "foo-1.0.tar.gzr.gz".toList ≠ "foo".toList ++ "-".toList ++ "1.0".toList ++
        ".tar.gz".toList ∧
      "foo-1.0.tar.bz2.bz2".toList ≠ "foo".toList ++ "-".toList ++ "1.0".toList ++
        ".tar.bz2".toList := by
  decide

/-- C4: on `foo-1.0-patch.tar.gz` the version is `1.0` and the variant is
`patch`, but the `memmove` of `parse_filename` shifts the suffix by four
characters, not six, and without its terminator: `pkgtar` is
`foo-1.0-p.tar.gzr.gz`, not `foo-1.0.tar.gz`. -/
theorem parse_filename_patch_pkgtar :
    parse_filename ("foo".toList ++ "-".toList ++ "1.0".toList ++ "-patch".toList ++
        ".tar.gz".toList) =
        some { pkgtar := "foo-1.0-p.tar.gzr.gz".toList, pkg := "foo".toList,
               ver := "1.0".toList, tail := ".tar.gz".toList, what := "patch".toList } ∧
      "foo-1.0-p.tar.gzr.gz".toList ≠ "foo".toList ++ "-".toList ++ "1.0".toList ++
        ".tar.gz".toList := by
  decide

/-- C5: a filename that ends neither in `.tar.gz` nor in `.tar.bz2` (compared
exactly, case included) is rejected: `parse_filename` returns 0. -/
theorem parse_filename_not_tarball (fn : List Char) (hgz : ¬ ".tar.gz".toList <:+ fn)
    (hbz : ¬ ".tar.bz2".toList <:+ fn) : parse_filename fn = none := by
  unfold parse_filename
  simp only [find_tar_ext_eq_zero fn hgz hbz, if_true]

theorem parse_filename_not_tarball_witness :
    ¬ ".tar.gz".toList <:+ "notatarball.zip".toList ∧
      ¬ ".tar.bz2".toList <:+ "notatarball.zip".toList ∧
      parse_filename "notatarball.zip".toList = none :=
  ⟨by decide, by decide,
    parse_filename_not_tarball "notatarball.zip".toList (by decide) (by decide)⟩

/-- C6: on every filename that `parse_filename` accepts the version is not
empty: it is the literal `0.0` or it begins with a digit, also when a trailing
`-src` or `-patch` has been cut off. -/
theorem parse_filename_ver_nonempty (in_fn : List Char) (f : fileparse)
    (h : parse_filename in_fn = some f) :
    f.ver ≠ [] ∧ (f.ver = "0.0".toList ∨ ∃ d v, f.ver = d :: v ∧ isdigit d = true) := by
  by_cases hn : find_tar_ext in_fn = 0
  · simp [parse_filename, hn] at h
  · obtain ⟨hs, hsuf⟩ := find_tar_ext_suffix in_fn hn
    have hsplit : in_fn = in_fn.take (find_tar_ext in_fn) ++ in_fn.drop (find_tar_ext in_fn) :=
      (List.take_append_drop _ _).symm
    generalize in_fn.take (find_tar_ext in_fn) = stem at hs hsplit
    generalize in_fn.drop (find_tar_ext in_fn) = suffix at hsuf hsplit
    subst hsplit
    have hshape := scan_ver_shape suffix [] (base stem)
    by_cases hw : (scan suffix [] (base stem)).what = []
    · by_cases h4 : "-src".toList <:+ strlwr (scan suffix [] (base stem)).ver
      · rw [parse_filename_of_src stem suffix hs hsuf _ rfl hw h4] at h
        cases h
        exact ver_shape_default _ (ver_shape_take _ _ hshape)
      · by_cases h6 : "-patch".toList <:+ strlwr (scan suffix [] (base stem)).ver
        · rw [parse_filename_of_patch stem suffix hs hsuf _ rfl hw h4 h6] at h
          cases h
          exact ver_shape_default _ (ver_shape_take _ _ hshape)
        · have hm : ¬ ends_in_marker (scan suffix [] (base stem)).ver := by
            rintro (h' | h')
            · exact h4 h'
            · exact h6 h'
          rw [parse_filename_of_plain stem suffix hs hsuf _ rfl hw hm] at h
          cases h
          exact ver_shape_default _ hshape
    · rw [parse_filename_of_what stem suffix hs hsuf _ rfl hw] at h
      cases h
      exact ver_shape_default _ hshape

theorem parse_filename_ver_nonempty_witness :
    parse_filename "foo-1.0-patch.tar.gz".toList =
        some { pkgtar := "foo-1.0-p.tar.gzr.gz".toList, pkg := "foo".toList,
               ver := "1.0".toList, tail := ".tar.gz".toList, what := "patch".toList } ∧
      "1.0".toList ≠ [] ∧
      ("1.0".toList = "0.0".toList ∨ ∃ d v, "1.0".toList = d :: v ∧ isdigit d = true) :=
  ⟨by decide,
    parse_filename_ver_nonempty "foo-1.0-patch.tar.gz".toList
      { pkgtar := "foo-1.0-p.tar.gzr.gz".toList, pkg := "foo".toList,
        ver := "1.0".toList, tail := ".tar.gz".toList, what := "patch".toList } (by decide)⟩

/-- C7, amended: when the file name has at most `MAX_PATH` characters and its
last path component, tarball suffix stripped, is non-empty, has no `-`
immediately followed by a digit and does not end in `-src` or `-patch` (case
ignored), `parse_filename` succeeds with that whole component as package base,
the version `0.0` and no variant. -/
theorem parse_filename_no_version (dir comp suffix : List Char)
    (hsuf : suffix = ".tar.gz".toList ∨ suffix = ".tar.bz2".toList)
    (hdir : is_dir dir) (hne : comp ≠ []) (hsep : no_sep comp)
    (hdd : has_dash_digit comp = false) (hm : ¬ ends_in_marker comp)
    (hlen : (dir ++ comp ++ suffix).length ≤ MAX_PATH) :
    parse_filename_checked (dir ++ comp ++ suffix) =
      parse_outcome.parsed
        { pkgtar := dir ++ comp ++ suffix, pkg := comp, ver := "0.0".toList,
          tail := suffix, what := [] } :=
  parsed_of_le hlen (no_version_strings dir comp suffix hsuf hdir hne hsep hdd hm)

theorem parse_filename_no_version_witness :
    parse_filename_checked "foo.tar.gz".toList =
      parse_outcome.parsed
        { pkgtar := "foo.tar.gz".toList, pkg := "foo".toList, ver := "0.0".toList,
          tail := ".tar.gz".toList, what := [] } :=
  parse_filename_no_version [] "foo".toList ".tar.gz".toList (Or.inl rfl) (by decide)
    (by decide) (by decide) (by decide) (by decide) (by decide)

/-- C7 as stated fails: for a component of 254 letters `a` the name
`aaa...a.tar.gz` has 261 characters, and `strcpy (f.pkgtar, in_fn)` (line 111)
copies them and the NUL into the 261 bytes of `pkgtar`, past its end: the call
does not deliver the package base the claim names. -/
theorem parse_filename_no_version_counterexample :
    (List.replicate 254 'a' ++ ".tar.gz".toList).length = 261 ∧
      no_sep (List.replicate 254 'a') ∧ has_dash_digit (List.replicate 254 'a') = false ∧
      ¬ ends_in_marker (List.replicate 254 'a') ∧
      parse_filename_checked (List.replicate 254 'a' ++ ".tar.gz".toList) =
        parse_outcome.overrun ∧
      ¬ ∃ f, parse_filename_checked (List.replicate 254 'a' ++ ".tar.gz".toList) =
            parse_outcome.parsed f ∧
          f.pkg = List.replicate 254 'a' ∧ f.ver = "0.0".toList ∧ f.what = [] := by
  have hev : parse_filename_checked (List.replicate 254 'a' ++ ".tar.gz".toList) =
      parse_outcome.overrun := by decide
  refine ⟨by decide, by decide, by decide, by decide, hev, ?_⟩
  rintro ⟨f, hf, -⟩
  rw [hev] at hf
  cases hf

/-- C8, amended: when the file name has at most `MAX_PATH` characters and its
last path component is `<base>-<V>` followed by the suffix, with `V` equal to
`src` or `patch` up to letter case and `<base>` free of dash-digit, it is a
bare variant: package base `<base>`, variant `V` in lower case, version `0.0`,
and the canonical tarball name is `<base>` followed by the suffix. -/
theorem parse_filename_bare_variant (dir b V suffix : List Char)
    (hsuf : suffix = ".tar.gz".toList ∨ suffix = ".tar.bz2".toList)
    (hdir : is_dir dir) (hsep : no_sep b) (hdd : has_dash_digit b = false)
    (hV : strlwr V = "src".toList ∨ strlwr V = "patch".toList)
    (hlen : (dir ++ (b ++ "-".toList ++ V) ++ suffix).length ≤ MAX_PATH) :
    parse_filename_checked (dir ++ (b ++ "-".toList ++ V) ++ suffix) =
      parse_outcome.parsed
        { pkgtar := b ++ suffix, pkg := b, ver := "0.0".toList, tail := suffix,
          what := strlwr V } :=
  parsed_of_le hlen (bare_variant_strings dir b V suffix hsuf hdir hsep hdd hV)

theorem parse_filename_bare_variant_witness :
    parse_filename_checked "dir/foo-SRC.tar.bz2".toList =
      parse_outcome.parsed
        { pkgtar := "foo.tar.bz2".toList, pkg := "foo".toList, ver := "0.0".toList,
          tail := ".tar.bz2".toList, what := "src".toList } :=
  parse_filename_bare_variant "dir/".toList "foo".toList "SRC".toList ".tar.bz2".toList
    (Or.inr rfl) (by decide) (by decide) (by decide) (Or.inl (by decide)) (by decide)

/-- C8 as stated fails: for a base of 255 letters `z` the name `zzz...z-src.tar.gz`
makes `strcpy (f.pkgtar, p)` and `strcat (f.pkgtar, f.tail)` (lines 98-99) put
262 characters and the NUL into the 261 bytes of `pkgtar`, past its end: the
call does not deliver the package base and the tarball name of the claim. -/
theorem parse_filename_bare_variant_counterexample :
    no_sep (List.replicate 255 'z') ∧ has_dash_digit (List.replicate 255 'z') = false ∧
      parse_filename_checked
        (List.replicate 255 'z' ++ "-".toList ++ "src".toList ++ ".tar.gz".toList) =
        parse_outcome.overrun ∧
      ¬ ∃ f, parse_filename_checked
            (List.replicate 255 'z' ++ "-".toList ++ "src".toList ++ ".tar.gz".toList) =
              parse_outcome.parsed f ∧
          f.pkg = List.replicate 255 'z' ∧ f.what = "src".toList ∧ f.ver = "0.0".toList ∧
          f.pkgtar = List.replicate 255 'z' ++ ".tar.gz".toList := by
  have hev : parse_filename_checked
      (List.replicate 255 'z' ++ "-".toList ++ "src".toList ++ ".tar.gz".toList) =
      parse_outcome.overrun := by decide
  refine ⟨by decide, by decide, hev, ?_⟩
  rintro ⟨f, hf, -⟩
  rw [hev] at hf
  cases hf

/-! ## The claims on the record reader and on sorting -/

/-- C9, amended: the reader skips one field after each archive token it has
parsed, and a token that ends its line carries the newline.  Take a name that
passes the filter and two archive tokens that `parse_filename` accepts within
the capacity of its buffers.  On a line `<name> <archive1> <field> <archive2>`
whose second archive token is followed by a blank, or ends the buffer with no
newline, exactly two records are stored, one per archive token, under the name
(with `-<variant>` appended when the token has a variant) and with the parsed
version.  When the newline follows the second archive token directly, that
token is rejected and only the record of the first archive is stored.  On a
line `<name> <archive1> <archive2>`, with or without a newline, the third token
is the skipped field and only the record of the first archive is stored. -/
theorem dump_line_records (argv : Option (List (List Char)))
    (name t1 x t2 rest : List Char) (f1 f2 : fileparse)
    (hname : name ≠ []) (hname_s : ' ' ∉ name) (ht1 : ' ' ∉ t1)
    (hx : x ≠ []) (hxs : ' ' ∉ x) (ht2 : ' ' ∉ t2)
    (hm : match_argv argv name = true)
    (hp1 : parse_filename_checked t1 = parse_outcome.parsed f1)
    (hp2 : parse_filename_checked t2 = parse_outcome.parsed f2) :
    dump_line argv (name ++ " ".toList ++ t1 ++ " ".toList ++ x ++ " ".toList ++ t2) =
        [{ name := display_name name f1, ver := f1.ver },
         { name := display_name name f2, ver := f2.ver }] ∧
      dump_line argv (name ++ " ".toList ++ t1 ++ " ".toList ++ x ++ " ".toList ++ t2 ++
          " ".toList ++ rest) =
        [{ name := display_name name f1, ver := f1.ver },
         { name := display_name name f2, ver := f2.ver }] ∧
      dump_line argv (name ++ " ".toList ++ t1 ++ " ".toList ++ x ++ " ".toList ++ t2 ++
          "\n".toList) =
        [{ name := display_name name f1, ver := f1.ver }] ∧
      dump_line argv (name ++ " ".toList ++ t1 ++ " ".toList ++ t2) =
        [{ name := display_name name f1, ver := f1.ver }] ∧
      dump_line argv (name ++ " ".toList ++ t1 ++ " ".toList ++ t2 ++ "\n".toList) =
        [{ name := display_name name f1, ver := f1.ver }] := by
  have hsp : " ".toList = [' '] := rfl
  have hnl : "\n".toList = ['\n'] := rfl
  have hq1 : parse_filename t1 = some f1 := parse_filename_of_parsed hp1
  have hq2 : parse_filename t2 = some f2 := parse_filename_of_parsed hp2
  have ht2n : ' ' ∉ t2 ++ ['\n'] := by
    intro h
    rcases List.mem_append.mp h with h | h
    · exact ht2 h
    · exact absurd (List.mem_singleton.mp h) (by decide)
  have ht2ne : t2 ++ ['\n'] ≠ [] := by simp
  refine ⟨?_, ?_, ?_, ?_, ?_⟩
  · have hline : name ++ " ".toList ++ t1 ++ " ".toList ++ x ++ " ".toList ++ t2 =
        name ++ ' ' :: (t1 ++ ' ' :: (x ++ ' ' :: t2)) := by simp [hsp]
    rw [hline, dump_line, strtok_token name _ hname hname_s]
    simp only [hm, if_true]
    rw [archive_loop_step name 1 t1 _ f1 ht1 hq1, strtok_token x _ hx hxs]
    simp only
    rw [archive_loop_last name 0 t2 f2 ht2 hq2]
  · have hline : name ++ " ".toList ++ t1 ++ " ".toList ++ x ++ " ".toList ++ t2 ++
        " ".toList ++ rest =
        name ++ ' ' :: (t1 ++ ' ' :: (x ++ ' ' :: (t2 ++ ' ' :: rest))) := by simp [hsp]
    rw [hline, dump_line, strtok_token name _ hname hname_s]
    simp only [hm, if_true]
    rw [archive_loop_step name 1 t1 _ f1 ht1 hq1, strtok_token x _ hx hxs]
    simp only
    rw [archive_loop_step name 0 t2 _ f2 ht2 hq2, archive_loop_zero_tail]
  · have hline : name ++ " ".toList ++ t1 ++ " ".toList ++ x ++ " ".toList ++ t2 ++
        "\n".toList =
        name ++ ' ' :: (t1 ++ ' ' :: (x ++ ' ' :: (t2 ++ ['\n']))) := by simp [hsp, hnl]
    rw [hline, dump_line, strtok_token name _ hname hname_s]
    simp only [hm, if_true]
    rw [archive_loop_step name 1 t1 _ f1 ht1 hq1, strtok_token x _ hx hxs]
    simp only
    rw [archive_loop_reject name 0 _ ht2ne ht2n (parse_filename_newline t2)]
  · have hline : name ++ " ".toList ++ t1 ++ " ".toList ++ t2 =
        name ++ ' ' :: (t1 ++ ' ' :: t2) := by simp [hsp]
    rw [hline, dump_line, strtok_token name _ hname hname_s]
    simp only [hm, if_true]
    rw [archive_loop_step name 1 t1 _ f1 ht1 hq1,
      strtok_last t2 (parse_filename_ne_nil hq2) ht2]
    simp only
    rw [archive_loop, strtok_nil]
  · have hline : name ++ " ".toList ++ t1 ++ " ".toList ++ t2 ++ "\n".toList =
        name ++ ' ' :: (t1 ++ ' ' :: (t2 ++ ['\n'])) := by simp [hsp, hnl]
    rw [hline, dump_line, strtok_token name _ hname hname_s]
    simp only [hm, if_true]
    rw [archive_loop_step name 1 t1 _ f1 ht1 hq1, strtok_last _ ht2ne ht2n]
    simp only
    rw [archive_loop, strtok_nil]

theorem dump_line_records_witness :
    dump_line none "cygwin cygwin-1.7.9-1.tar.bz2 0 cygwin-1.7.9-1-src.tar.bz2 0\n".toList =
        [{ name := "cygwin".toList, ver := "1.7.9-1".toList },
         { name := "cygwin-src".toList, ver := "1.7.9-1".toList }] ∧
      dump_line none "cygwin cygwin-1.7.9-1.tar.bz2 0 cygwin-1.7.9-1-src.tar.bz2\n".toList =
        [{ name := "cygwin".toList, ver := "1.7.9-1".toList }] :=
  have h := dump_line_records none "cygwin".toList "cygwin-1.7.9-1.tar.bz2".toList "0".toList
    "cygwin-1.7.9-1-src.tar.bz2".toList "0\n".toList
    { pkgtar := "cygwin-1.7.9-1.tar.bz2".toList, pkg := "cygwin".toList,
      ver := "1.7.9-1".toList, tail := ".tar.bz2".toList, what := [] }
    { pkgtar := "cygwin-1.7.9-1.tar.bz2.bz2".toList, pkg := "cygwin".toList,
      ver := "1.7.9-1".toList, tail := ".tar.bz2".toList, what := "src".toList }
    (by decide) (by decide) (by decide) (by decide) (by decide) (by decide) rfl
    (by decide) (by decide)
  ⟨h.2.1, h.2.2.1⟩

/-- C9 as stated fails: on the three-token line of the scenario the second
archive token is consumed as the skipped field, and the single record
(cygwin, 1.7.9-1) is stored, with or without the newline of the line. -/
theorem dump_line_records_counterexample :
    dump_line none "cygwin cygwin-1.7.9-1.tar.bz2 cygwin-1.7.9-1-src.tar.bz2".toList =
        [{ name := "cygwin".toList, ver := "1.7.9-1".toList }] ∧
      dump_line none "cygwin cygwin-1.7.9-1.tar.bz2 cygwin-1.7.9-1-src.tar.bz2\n".toList =
        [{ name := "cygwin".toList, ver := "1.7.9-1".toList }] ∧
      parse_filename_checked "cygwin-1.7.9-1.tar.bz2".toList =
        parse_outcome.parsed
          { pkgtar := "cygwin-1.7.9-1.tar.bz2".toList, pkg := "cygwin".toList,
            ver := "1.7.9-1".toList, tail := ".tar.bz2".toList, what := [] } ∧
      parse_filename_checked "cygwin-1.7.9-1-src.tar.bz2".toList =
        parse_outcome.parsed
          { pkgtar := "cygwin-1.7.9-1.tar.bz2.bz2".toList, pkg := "cygwin".toList,
            ver := "1.7.9-1".toList, tail := ".tar.bz2".toList, what := "src".toList } ∧
      match_argv none "cygwin".toList = true ∧
      dump_setup_checked true none
          ["cygwin cygwin-1.7.9-1.tar.bz2 cygwin-1.7.9-1-src.tar.bz2\n".toList] =
        reader_outcome.stored [{ name := "cygwin".toList, ver := "1.7.9-1".toList }] ∧
      dump_line none "cygwin cygwin-1.7.9-1.tar.bz2 cygwin-1.7.9-1-src.tar.bz2".toList ≠
        [{ name := "cygwin".toList, ver := "1.7.9-1".toList },
         { name := "cygwin-src".toList, ver := "1.7.9-1".toList }] := by
  decide

/-- C11: `compar` orders the records by name with letter case ignored and by
nothing else: its result is negative, zero or positive exactly as the
lower-cased name of the first record is lexicographically less than, equal to
or greater than that of the second.  It is a total preorder, `apache` sorts
before `Zlib`, and the rows `dump_setup` prints are the stored records, put in
non-decreasing order under it. -/
theorem compar_order :
    (∀ a b : pkgver,
        (compar a b < 0 ↔
          List.Lex (fun x y : Char => x < y) (strlwr a.name) (strlwr b.name)) ∧
        (compar a b = 0 ↔ strlwr a.name = strlwr b.name) ∧
        (0 < compar a b ↔
          List.Lex (fun x y : Char => x < y) (strlwr b.name) (strlwr a.name))) ∧
      (∀ a b : pkgver, compar a b ≤ 0 ∨ compar b a ≤ 0) ∧
      (∀ a b c : pkgver, compar a b ≤ 0 → compar b c ≤ 0 → compar a c ≤ 0) ∧
      (∀ v1 v2 : List Char,
        compar { name := "apache".toList, ver := v1 } { name := "Zlib".toList, ver := v2 } < 0) ∧
      (∀ (argv : Option (List (List Char))) (lines : List (List Char)) (rows : List pkgver),
        dump_setup_rows argv lines = some rows →
          List.Sorted (fun a b => compar a b ≤ 0) rows ∧
          ∃ records, dump_setup_records argv lines = some records ∧ rows.Perm records) := by
  have hsign : ∀ a b : pkgver,
      (compar a b < 0 ↔
        List.Lex (fun x y : Char => x < y) (strlwr a.name) (strlwr b.name)) ∧
      (compar a b = 0 ↔ strlwr a.name = strlwr b.name) ∧
      (0 < compar a b ↔
        List.Lex (fun x y : Char => x < y) (strlwr b.name) (strlwr a.name)) := by
    intro a b
    refine ⟨strcasecmp_neg_iff _ _, strcasecmp_eq_zero_iff _ _, ?_⟩
    unfold compar
    rw [strcasecmp_swap, strcasecmp_neg_iff]
  have hle : ∀ a b : pkgver, compar a b ≤ 0 ↔
      ¬ List.Lex (fun x y : Char => x < y) (strlwr b.name) (strlwr a.name) := by
    intro a b
    rw [← (hsign a b).2.2]
    omega
  have htotal : ∀ a b : pkgver, compar a b ≤ 0 ∨ compar b a ≤ 0 := by
    intro a b
    by_contra hcon
    push_neg at hcon
    have h1 := (hsign a b).2.2.mp hcon.1
    have h2 := (hsign b a).2.2.mp hcon.2
    exact asymm h1 h2
  have htrans : ∀ a b c : pkgver, compar a b ≤ 0 → compar b c ≤ 0 → compar a c ≤ 0 := by
    intro a b c hab hbc
    rw [hle] at hab hbc ⊢
    intro hca
    rcases @IsOrderConnected.conn _ (List.Lex (fun x y : Char => x < y)) _
      (strlwr c.name) (strlwr b.name) (strlwr a.name) hca with h | h
    · exact hbc h
    · exact hab h
  refine ⟨hsign, htotal, htrans, ?_, ?_⟩
  · intro v1 v2
    show strcasecmp "apache".toList "Zlib".toList < 0
    decide
  · intro argv lines rows hrows
    unfold dump_setup_rows at hrows
    cases hrec : dump_setup_records argv lines with
    | none => simp [hrec] at hrows
    | some records =>
      simp only [hrec, Option.map_some', Option.some.injEq] at hrows
      subst hrows
      haveI : IsTotal pkgver (fun a b => compar a b ≤ 0) := ⟨htotal⟩
      haveI : IsTrans pkgver (fun a b => compar a b ≤ 0) := ⟨htrans⟩
      exact ⟨List.sorted_insertionSort _ records, records, rfl,
        List.perm_insertionSort _ records⟩

theorem compar_order_witness :
    dump_setup_rows none ["Zlib Zlib-1.2.tar.gz 0\n".toList,
        "apache apache-2.0-src.tar.gz 0\n".toList] =
        some [{ name := "apache-src".toList, ver := "2.0".toList },
              { name := "Zlib".toList, ver := "1.2".toList }] ∧
      List.Sorted (fun a b => compar a b ≤ 0)
        [{ name := "apache-src".toList, ver := "2.0".toList },
         { name := "Zlib".toList, ver := "1.2".toList }] :=
  ⟨by decide,
    (compar_order.2.2.2.2 none ["Zlib Zlib-1.2.tar.gz 0\n".toList,
        "apache apache-2.0-src.tar.gz 0\n".toList]
      [{ name := "apache-src".toList, ver := "2.0".toList },
       { name := "Zlib".toList, ver := "1.2".toList }] (by decide)).1⟩

/-! ## The claims on the file list verifier -/

/-- C16, amended: `parse_filename` accepts a name only when at least one
character stands before the tarball suffix; a name that is exactly `.tar.gz` or
`.tar.bz2` makes `find_tar_ext` return 0 and is rejected. -/
theorem parse_filename_needs_stem :
    (∀ (in_fn : List Char) (f : fileparse), parse_filename in_fn = some f →
        ∃ stem : List Char, stem ≠ [] ∧ in_fn = stem ++ f.tail ∧
          (f.tail = ".tar.gz".toList ∨ f.tail = ".tar.bz2".toList)) ∧
      (∀ fn : List Char, fn = ".tar.gz".toList ∨ fn = ".tar.bz2".toList →
        find_tar_ext fn = 0 ∧ parse_filename fn = none) := by
  constructor
  · intro in_fn f h
    obtain ⟨stem, suffix, st, hs, hsuf, hin, -, htail, -⟩ := parse_filename_cases in_fn f h
    rw [htail]
    exact ⟨stem, hs, hin, hsuf⟩
  · rintro fn (rfl | rfl) <;> decide

theorem parse_filename_needs_stem_witness :
    ∃ stem : List Char, stem ≠ [] ∧ "a.tar.gz".toList = stem ++ ".tar.gz".toList ∧
      (".tar.gz".toList = ".tar.gz".toList ∨ ".tar.gz".toList = ".tar.bz2".toList) :=
  parse_filename_needs_stem.1 "a.tar.gz".toList
    { pkgtar := "a.tar.gz".toList, pkg := "a".toList, ver := "0.0".toList,
      tail := ".tar.gz".toList, what := [] } (by decide)

/-- C16 as stated fails: on the names `.tar.gz` and `.tar.bz2` the function
`parse_filename` returns 0, it does not yield an empty package base with the
version `0.0`. -/
theorem parse_filename_needs_stem_counterexample :
    parse_filename ".tar.gz".toList = none ∧ parse_filename ".tar.bz2".toList = none ∧
      ¬ ∃ f, parse_filename ".tar.gz".toList = some f ∧ f.pkg = [] ∧
        f.ver = "0.0".toList ∧ f.what = [] := by
  refine ⟨by decide, by decide, ?_⟩
  rintro ⟨f, hf, -⟩
  have hnone : parse_filename ".tar.gz".toList = none := by decide
  rw [hnone] at hf
  cases hf

/-- C17: the second marker test copies the marker as it is spelled:
`foo-1.0-SRC.tar.gz` gives the variant `SRC` and `foo-1.0-Patch.tar.gz` the
variant `Patch`, while the bare marker of `foo-SRC.tar.gz` is lower-cased to
`src`; the record of the line `foo foo-1.0-SRC.tar.gz 0` is listed as
`foo-SRC`. -/
theorem parse_filename_variant_case :
    parse_filename "foo-1.0-SRC.tar.gz".toList =
        some { pkgtar := "foo-1.0.tar.gzr.gz".toList, pkg := "foo".toList,
               ver := "1.0".toList, tail := ".tar.gz".toList, what := "SRC".toList } ∧
      parse_filename "foo-1.0-Patch.tar.gz".toList =
        some { pkgtar := "foo-1.0-P.tar.gzr.gz".toList, pkg := "foo".toList,
               ver := "1.0".toList, tail := ".tar.gz".toList, what := "Patch".toList } ∧
      parse_filename "foo-SRC.tar.gz".toList =
        some { pkgtar := "foo.tar.gz".toList, pkg := "foo".toList,
               ver := "0.0".toList, tail := ".tar.gz".toList, what := "src".toList } ∧
      dump_line none "foo foo-1.0-SRC.tar.gz 0\n".toList =
        [{ name := "foo-SRC".toList, ver := "1.0".toList }] ∧
      "SRC".toList ≠ "src".toList := by
  decide

/-- C18, amended: whenever `parse_filename` succeeds with every string it
stores inside its buffer, the input is a directory part (empty, or ending in a separator), then a body
with no separator except possibly as its last character, then `tail`, which is
`.tar.gz` or `.tar.bz2`; the body is the package base, followed by `-` and the
version exactly when the body has a dash-digit, followed by `-` and the
variant marker (equal to `what` up to letter case) exactly when `what` is not
empty; and the version is `0.0` when the body has no dash-digit. -/
theorem parse_filename_decomposition (in_fn : List Char) (f : fileparse)
    (h : parse_filename_checked in_fn = parse_outcome.parsed f) :
    ∃ dir body marker : List Char,
      in_fn = dir ++ body ++ f.tail ∧ is_dir dir ∧ no_sep body.dropLast ∧
      (f.tail = ".tar.gz".toList ∨ f.tail = ".tar.bz2".toList) ∧
      strlwr marker = strlwr f.what ∧
      body = f.pkg ++ (if has_dash_digit body then "-".toList ++ f.ver else []) ++
        (if f.what ≠ [] then "-".toList ++ marker else []) ∧
      (has_dash_digit body = false → f.ver = "0.0".toList) :=
  decomposition_strings in_fn f (parse_filename_of_parsed h)

theorem parse_filename_decomposition_witness :
    ∃ dir body marker : List Char,
      "dir/foo-1.0-SRC.tar.gz".toList = dir ++ body ++ ".tar.gz".toList ∧ is_dir dir ∧
      no_sep body.dropLast ∧
      (".tar.gz".toList = ".tar.gz".toList ∨ ".tar.gz".toList = ".tar.bz2".toList) ∧
      strlwr marker = strlwr "SRC".toList ∧
      body = "foo".toList ++
          (if has_dash_digit body then "-".toList ++ "1.0".toList else []) ++
        (if "SRC".toList ≠ [] then "-".toList ++ marker else []) ∧
      (has_dash_digit body = false → "1.0".toList = "0.0".toList) :=
  parse_filename_decomposition "dir/foo-1.0-SRC.tar.gz".toList
    { pkgtar := "dir/foo-1.0.tar.gzr.gz".toList, pkg := "foo".toList, ver := "1.0".toList,
      tail := ".tar.gz".toList, what := "SRC".toList } (by decide)

/-- C18 as stated fails: `a/.tar.gz` is accepted with the package base `a/`,
because `base` does not split at a separator that ends the stripped name; the
last path component of the input is `.tar.gz`, which is not `pkg` followed by
`tail`. -/
theorem parse_filename_decomposition_counterexample :
    parse_filename_checked "a/.tar.gz".toList =
        parse_outcome.parsed
          { pkgtar := "a/.tar.gz".toList, pkg := "a/".toList, ver := "0.0".toList,
            tail := ".tar.gz".toList, what := [] } ∧
      "a/.tar.gz".toList = "a/".toList ++ ".tar.gz".toList ∧ is_dir "a/".toList ∧
      no_sep ".tar.gz".toList ∧
      ".tar.gz".toList ≠ "a/".toList ++ ".tar.gz".toList := by
  decide

/-! ## The claims on the verbose flag and on the record array -/

/-- C19: the verbose flag changes no verdict: `check_package_files`,
`directory_exists`, `file_exists` and `could_not_access` return the same value
with verbose on and off.  With verbose off nothing is printed. -/
theorem verbose_no_effect (w : host) (verbose : Bool) (package : List Char) :
    (check_package_files w verbose package).1 = (check_package_files w false package).1 ∧
      (∀ filename : List Char,
        (directory_exists w verbose filename package).1 =
          (directory_exists w false filename package).1) ∧
      (∀ (filename : List Char) (alt : Option (List Char)),
        (file_exists w verbose filename alt package).1 =
          (file_exists w false filename alt package).1) ∧
      (∀ (errno : Nat) (filename type : List Char),
        (could_not_access errno verbose filename package type).1 =
          (could_not_access errno false filename package type).1) ∧
      (check_package_files w false package).2 = [] := by
  refine ⟨?_, fun filename => directory_exists_verbose w verbose filename package,
    fun filename alt => file_exists_verbose w verbose filename alt package,
    fun errno filename type => could_not_access_verbose errno verbose filename package type, ?_⟩
  · unfold check_package_files
    simp only
    by_cases hfl : (!(file_exists w false ("etc/setup/".toList ++ package ++
        ".lst.gz".toList) none []).1) = true
    · rw [if_pos hfl, if_pos hfl]
    · rw [if_neg hfl, if_neg hfl, check_loop_eq, check_loop_eq]
      simp only [check_entry_verbose w verbose package]
  · unfold check_package_files
    simp only
    by_cases hfl : (!(file_exists w false ("etc/setup/".toList ++ package ++
        ".lst.gz".toList) none []).1) = true
    · rw [if_pos hfl]
      rfl
    · rw [if_neg hfl, check_loop_eq]
      simp [check_entry_quiet]

end DumpSetup
